import Mathlib

/-!
# Nachos file header (i-node) with a secondary index block

A shallow embedding of `lab5/filehdr.cc`: `FileHeader::Allocate`,
`FileHeader::AppendSector`, `FileHeader::Deallocate`, `FileHeader::ByteToSector`,
`FileHeader::FetchFrom` and `FileHeader::WriteBack`, together with the free-sector
bitmap and the synchronous disk they call.

Conventions of the embedding.

* C++ `int` values are mathematical integers (`Int`). The only arithmetic of the
  source that can leave the range of a 32-bit `int` is that of `AppendSector`, and
  only in header states with a sector count far above the capacity of 61;
  `AppendSector32` is the same method with every `int` operation wrapped to 32
  bits, and the two agree on every state the operations can reach.
* A call that cannot return normally ends in a `Fault`: a failed `ASSERT`, a
  transfer the disk refuses, or an array index outside its array (undefined
  behaviour in C++).
* Every `for` loop is a structurally recursive function whose first argument
  is the number of iterations the C++ loop performs, `(hi - i).toNat`.
* The local array `int dataSectors2[NumDirect2]` is not initialised by the
  source; its initial content is the explicit argument `junk`.
* `World.findLog` is a ghost history of the values returned by `BitMap::Find`;
  no operation ever reads it.
-/

namespace Nachos

/-- Ways in which a call can end without returning. -/
inductive Fault where
  | assertion
  | device
  | bounds
  deriving DecidableEq

/-- Modelled from the spec: the constant `SectorSize` of `disk.h` (absent from the
sources); the spec fixes `sectorSize = 128`. -/
abbrev SectorSize : Int := 128

/-- Modelled from the spec: the constant `NumDirect` of `filehdr.h` (absent from the
sources); the spec fixes the direct-table width `D = 30`. -/
abbrev NumDirect : Nat := 30

/-- Modelled from the spec: the constant `NumDirect2` of `filehdr.h` (absent from the
sources); the spec fixes the indirect-block capacity `I = 32`. -/
abbrev NumDirect2 : Nat := 32

/-- Modelled from the spec: the macro `divRoundUp` of `utility.h` (absent from the
sources); the spec reads it as `ceil(n / s)`. -/
def divRoundUp (n s : Int) : Int := -((-n) / s)

/-- Modelled from the spec: the capacity test `NumDirect + NumDirect2 <= n` of `Allocate` and
`AppendSector`, which the spec gives as a bound on a sector count. Both constants are
declared in `filehdr.h` (absent from the sources). The source chooses the table size "so that
the file header will be just big enough to fit in one disk sector", that is from `sizeof`:
the sum is unsigned and the `int` operand `n` is converted to unsigned before it is
compared. A negative `n` converts to a value above every bound, so the test holds for every
`n < 0` and for every `n >= 62`. -/
def overCapacity (n : Int) : Bool :=
  decide (n < 0) || decide ((NumDirect : Int) + (NumDirect2 : Int) ≤ n)

/-- One sector seen as an array of `NumDirect2` integers. -/
abbrev Block := Fin NumDirect2 → Int

/-- The value `NumDirect - 1` that the source calls `lastIndex`, as an index of
`dataSectors`. -/
def lastSlot : Fin NumDirect := ⟨29, by decide⟩

/-- Array assignment `t[j] = v` at an index known to be inside the array. -/
def put {n : Nat} (t : Fin n → Int) (j : Fin n) (v : Int) : Fin n → Int :=
  fun k => if k = j then v else t k

/-- Array read `t[i]` with a C++ `int` index. -/
def loadAt {n : Nat} (t : Fin n → Int) (i : Int) : Except Fault Int :=
  if h : 0 ≤ i ∧ i < (n : Int) then .ok (t ⟨i.toNat, by omega⟩) else .error .bounds

/-- Array assignment `t[i] = v` with a C++ `int` index. -/
def storeAt {n : Nat} (t : Fin n → Int) (i : Int) (v : Int) : Except Fault (Fin n → Int) :=
  if h : 0 ≤ i ∧ i < (n : Int) then .ok (put t ⟨i.toNat, by omega⟩ v) else .error .bounds

/-- Free-sector bitmap: one bit per sector, `true` when the sector is in use. -/
abbrev BitMap := List Bool

/-- Index of the lowest clear bit, if there is one. -/
def firstClear : List Bool → Option Nat
  | [] => none
  | false :: _ => some 0
  | true :: bs => (firstClear bs).map (· + 1)

/-- Modelled from the spec: `BitMap::NumClear` of `bitmap.cc` (absent from the
sources), the spec's `countFree()`: the number of clear bits. -/
def BitMap.NumClear (bm : BitMap) : Int := ((bm.count false : Nat) : Int)

/-- Modelled from the spec: `BitMap::Find` of `bitmap.cc` (absent from the sources), the
spec's `findFree()`: returns and marks used the lowest-numbered clear bit, or
signals exhaustion (the sentinel `-1`) if none remain. -/
def BitMap.Find (bm : BitMap) : Int × BitMap :=
  match firstClear bm with
  | some i => ((i : Int), bm.set i true)
  | none => (-1, bm)

/-- Modelled from the spec: `BitMap::Test` of `bitmap.cc` (absent from the sources), the
spec's `test`: whether the sector is marked used. An identifier that names no
bit of the map is a fatal consistency error. -/
def BitMap.Test (bm : BitMap) (which : Int) : Except Fault Bool :=
  if 0 ≤ which ∧ which < (bm.length : Int) then .ok (bm.getD which.toNat false)
  else .error .assertion

/-- Modelled from the spec: `BitMap::Clear` of `bitmap.cc` (absent from the sources), the
spec's `release`: clears the bit. That the bit was set is a precondition left to the
caller, which `Deallocate` tests with `ASSERT(freeMap->Test(...))`; an identifier that
names no bit of the map is a fatal consistency error. -/
def BitMap.Clear (bm : BitMap) (which : Int) : Except Fault BitMap :=
  if 0 ≤ which ∧ which < (bm.length : Int) then .ok (bm.set which.toNat false)
  else .error .assertion

/-- Everything outside the file header that the operations touch: the free map
handed to them, the disk behind `synchDisk`, and the ghost history of the
values `Find` returned. -/
structure World where
  freeMap : BitMap
  disk : Nat → Block
  findLog : List Int

/-- The call `bitMap->Find()`, recorded in the ghost history. -/
def World.Find (w : World) : Int × World :=
  (w.freeMap.Find.1, ⟨w.freeMap.Find.2, w.disk, w.findLog ++ [w.freeMap.Find.1]⟩)

/-- Modelled from the spec: `SynchDisk::ReadSector` of `synchdisk.cc` (absent from the
sources), the block device's synchronous `read(sectorId)`. A sector identifier
is a non-negative integer; any other value is a device error, which is fatal. -/
def World.ReadSector (w : World) (sector : Int) : Except Fault Block :=
  if 0 ≤ sector then .ok (w.disk sector.toNat) else .error .device

/-- Modelled from the spec: `SynchDisk::WriteSector` of `synchdisk.cc` (absent from the
sources), the block device's synchronous `write(sectorId, block)`. A sector
identifier is a non-negative integer; any other value is a device error, which
is fatal. -/
def World.WriteSector (w : World) (sector : Int) (data : Block) : Except Fault World :=
  if 0 ≤ sector then
    .ok ⟨w.freeMap, fun s => if s = sector.toNat then data else w.disk s, w.findLog⟩
  else .error .device

/-- The loop `for (; i < hi; i++) t[i - off] = bitMap->Find();` with `cnt` iterations
left and `idx = i - off`. -/
def findLoop {n : Nat} : Nat → Int → (Fin n → Int) → World → Except Fault ((Fin n → Int) × World)
  | 0, _, t, w => .ok (t, w)
  | cnt + 1, idx, t, w =>
    match storeAt t idx w.Find.1 with
    | .error e => .error e
    | .ok t1 => findLoop cnt (idx + 1) t1 w.Find.2

/-- The loop `for (; i < hi; i++) { ASSERT(freeMap->Test(t[i])); freeMap->Clear(t[i]); }`
with `cnt` iterations left and `idx = i`. -/
def clearLoopChecked {n : Nat} : Nat → Int → (Fin n → Int) → BitMap → Except Fault BitMap
  | 0, _, _, bm => .ok bm
  | cnt + 1, idx, t, bm =>
    match loadAt t idx with
    | .error e => .error e
    | .ok s =>
      match bm.Test s with
      | .error e => .error e
      | .ok false => .error .assertion
      | .ok true =>
        match bm.Clear s with
        | .error e => .error e
        | .ok bm1 => clearLoopChecked cnt (idx + 1) t bm1

/-- The loop `for (; i < hi; i++) freeMap->Clear(t[i - off]);` with `cnt` iterations
left and `idx = i - off`. -/
def clearLoop {n : Nat} : Nat → Int → (Fin n → Int) → BitMap → Except Fault BitMap
  | 0, _, _, bm => .ok bm
  | cnt + 1, idx, t, bm =>
    match loadAt t idx with
    | .error e => .error e
    | .ok s =>
      match bm.Clear s with
      | .error e => .error e
      | .ok bm1 => clearLoop cnt (idx + 1) t bm1

/-- The in-memory file header: `numBytes`, `numSectors` and the table
`dataSectors[NumDirect]`. -/
structure FileHeader where
  numBytes : Int
  numSectors : Int
  dataSectors : Fin NumDirect → Int

/-- The method `FileHeader::Allocate(BitMap *freeMap, int fileSize)`. The result carries the value
returned, the header and the world after the call. -/
def FileHeader.Allocate (hdr : FileHeader) (w : World) (fileSize : Int) (junk : Block) :
    Except Fault (Bool × FileHeader × World) :=
  let numBytes := fileSize
  let numSectors := divRoundUp fileSize SectorSize
  if w.freeMap.NumClear < numSectors then
    .ok (false, ⟨numBytes, numSectors, hdr.dataSectors⟩, w)
  else if overCapacity numSectors then
    .ok (false, ⟨numBytes, numSectors, hdr.dataSectors⟩, w)
  else
    let lastIndex : Int := (NumDirect : Int) - 1
    if numSectors < lastIndex then
      match findLoop (numSectors - 0).toNat 0 hdr.dataSectors w with
      | .error e => .error e
      | .ok (ds, w1) => .ok (true, ⟨numBytes, numSectors, put ds lastSlot (-1)⟩, w1)
    else
      match findLoop (lastIndex - 0).toNat 0 hdr.dataSectors w with
      | .error e => .error e
      | .ok (ds, w1) =>
        let ds1 := put ds lastSlot w1.Find.1
        match findLoop ((numSectors - lastIndex) - 0).toNat 0 junk w1.Find.2 with
        | .error e => .error e
        | .ok (ds2, w3) =>
          match w3.WriteSector (ds1 lastSlot) ds2 with
          | .error e => .error e
          | .ok w4 => .ok (true, ⟨numBytes, numSectors, ds1⟩, w4)

/-- The method `FileHeader::AppendSector(BitMap *bitMap, int fileSize)`. -/
def FileHeader.AppendSector (hdr : FileHeader) (w : World) (fileSize : Int) (junk : Block) :
    Except Fault (Bool × FileHeader × World) :=
  if fileSize ≤ 0 then .ok (false, hdr, w)
  else
    let totalLength := hdr.numSectors * SectorSize
    let restLength := totalLength - hdr.numBytes
    if restLength < fileSize then
      let appendLength := fileSize - restLength
      let appendSectors := divRoundUp appendLength SectorSize
      if w.freeMap.NumClear < appendSectors then .ok (false, hdr, w)
      else if overCapacity (hdr.numSectors + appendSectors) then
        .ok (false, hdr, w)
      else
        let i := hdr.numSectors
        let numBytes := hdr.numBytes + fileSize
        let numSectors := hdr.numSectors + appendSectors
        let lastIndex : Int := (NumDirect : Int) - 1
        if hdr.dataSectors lastSlot = -1 then
          if numSectors < lastIndex then
            match findLoop (numSectors - i).toNat i hdr.dataSectors w with
            | .error e => .error e
            | .ok (ds, w1) => .ok (true, ⟨numBytes, numSectors, ds⟩, w1)
          else
            match findLoop (lastIndex - i).toNat i hdr.dataSectors w with
            | .error e => .error e
            | .ok (ds, w1) =>
              let i1 := if i < lastIndex then lastIndex else i
              let ds1 := put ds lastSlot w1.Find.1
              match findLoop (numSectors - i1).toNat (i1 - lastIndex) junk w1.Find.2 with
              | .error e => .error e
              | .ok (ds2, w3) =>
                match w3.WriteSector (ds1 lastSlot) ds2 with
                | .error e => .error e
                | .ok w4 => .ok (true, ⟨numBytes, numSectors, ds1⟩, w4)
        else
          match w.ReadSector (hdr.dataSectors lastSlot) with
          | .error e => .error e
          | .ok blk =>
            match findLoop (numSectors - i).toNat (i - lastIndex) blk w with
            | .error e => .error e
            | .ok (ds2, w1) =>
              match w1.WriteSector (hdr.dataSectors lastSlot) ds2 with
              | .error e => .error e
              | .ok w2 => .ok (true, ⟨numBytes, numSectors, hdr.dataSectors⟩, w2)
    else
      .ok (true, ⟨hdr.numBytes + fileSize, hdr.numSectors, hdr.dataSectors⟩, w)

/-- The method `FileHeader::Deallocate(BitMap *freeMap)`. -/
def FileHeader.Deallocate (hdr : FileHeader) (w : World) : Except Fault (FileHeader × World) :=
  let lastIndex : Int := (NumDirect : Int) - 1
  if hdr.dataSectors lastSlot = -1 then
    match clearLoopChecked (hdr.numSectors - 0).toNat 0 hdr.dataSectors w.freeMap with
    | .error e => .error e
    | .ok bm => .ok (hdr, ⟨bm, w.disk, w.findLog⟩)
  else
    match clearLoopChecked (lastIndex - 0).toNat 0 hdr.dataSectors w.freeMap with
    | .error e => .error e
    | .ok bm1 =>
      let i : Int := if 0 < lastIndex then lastIndex else 0
      match w.ReadSector (hdr.dataSectors lastSlot) with
      | .error e => .error e
      | .ok ds2 =>
        match bm1.Clear (hdr.dataSectors lastSlot) with
        | .error e => .error e
        | .ok bm2 =>
          match clearLoop (hdr.numSectors - i).toNat (i - lastIndex) ds2 bm2 with
          | .error e => .error e
          | .ok bm3 => .ok (hdr, ⟨bm3, w.disk, w.findLog⟩)

/-- The method `FileHeader::ByteToSector(int offset)`; `/` of C++ truncates towards zero. -/
def FileHeader.ByteToSector (hdr : FileHeader) (w : World) (offset : Int) :
    Except Fault (Int × FileHeader × World) :=
  let lastIndex : Int := (NumDirect : Int) - 1
  if offset.tdiv SectorSize < lastIndex then
    match loadAt hdr.dataSectors (offset.tdiv SectorSize) with
    | .error e => .error e
    | .ok s => .ok (s, hdr, w)
  else
    match w.ReadSector (hdr.dataSectors lastSlot) with
    | .error e => .error e
    | .ok ds2 =>
      match loadAt ds2 (offset.tdiv SectorSize - lastIndex) with
      | .error e => .error e
      | .ok s => .ok (s, hdr, w)


/-- Total form of the array read `t[i]`, used to list the entries of a table; an index
outside the array reads as `0`. -/
def peek {n : Nat} (t : Fin n → Int) (i : Int) : Int :=
  if h : 0 ≤ i ∧ i < (n : Int) then t ⟨i.toNat, by omega⟩ else 0

/-- The entries `t[idx], t[idx+1], ..., t[idx+cnt-1]` in index order. -/
def seg {n : Nat} (t : Fin n → Int) : Nat → Int → List Int
  | 0, _ => []
  | cnt + 1, idx => peek t idx :: seg t cnt (idx + 1)

/-- The sector identifiers a header addresses, in offset order: the first
`min(numSectors, 29)` direct entries and, when `dataSectors[29]` is not the sentinel,
the indirect block's own sector followed by the first `numSectors - 29` entries of the
indirect block stored there. -/
def FileHeader.addressed (hdr : FileHeader) (w : World) : List Int :=
  seg hdr.dataSectors (min hdr.numSectors.toNat 29) 0 ++
    (if hdr.dataSectors lastSlot = -1 then []
     else hdr.dataSectors lastSlot ::
       seg (w.disk (hdr.dataSectors lastSlot).toNat) (hdr.numSectors - 29).toNat 0)

/-- The values `Find` returned since the world was `w0`. -/
def findsSince (w0 w : World) : List Int := w.findLog.drop w0.findLog.length

/-- Bitmap `bm` is bitmap `b0` with exactly the sectors of `l` marked in addition: the
sectors of `l` are distinct sectors of the map that were clear in `b0`. -/
def Marked (b0 : BitMap) (l : List Int) (bm : BitMap) : Prop :=
  l.Nodup ∧ bm.length = b0.length ∧
  (∀ x ∈ l, 0 ≤ x ∧ x < (b0.length : Int) ∧ b0.getD x.toNat false = false) ∧
  (∀ j : Nat, j < b0.length → (bm.getD j false = true ↔ (b0.getD j false = true ∨ (j : Int) ∈ l)))

/-- The free map and the ghost history of `w` come from those of `w0` by calls of `Find`
alone; as long as none of them signalled exhaustion the free map is `Marked`. -/
def Tracks (w0 w : World) : Prop :=
  ∃ l, w.findLog = w0.findLog ++ l ∧ (-1 ∉ l → Marked w0.freeMap l w.freeMap)

/-- Header `hdr` and world `w` are what a successful `Allocate(a)` leaves when started in
world `w0`. -/
def AllocatesTo (w0 : World) (a : Int) (hdr : FileHeader) (w : World) : Prop :=
  ∃ (hdr0 : FileHeader) (junk : Block), hdr0.Allocate w0 a junk = .ok (true, hdr, w)

/-- Header `hdr1` and world `w1` are what a successful `AppendSector` leaves when started
with header `hdr` in world `w`. -/
def AppendsTo (hdr : FileHeader) (w : World) (hdr1 : FileHeader) (w1 : World) : Prop :=
  ∃ (n : Int) (junk : Block), hdr.AppendSector w n junk = .ok (true, hdr1, w1)

/-- States of a header and its world reached from the world `w0` by a successful
`Allocate(a)` followed by any number of successful `AppendSector` calls. -/
inductive Reach (w0 : World) (a : Int) : FileHeader → World → Prop
  | alloc (hdr : FileHeader) (w : World) : AllocatesTo w0 a hdr w → Reach w0 a hdr w
  | append (hdr : FileHeader) (w : World) (hdr1 : FileHeader) (w1 : World) :
      Reach w0 a hdr w → AppendsTo hdr w hdr1 w1 → Reach w0 a hdr1 w1

/-- The facts every reachable state satisfies. -/
def Inv (w0 : World) (hdr : FileHeader) (w : World) : Prop :=
  hdr.numBytes ≤ hdr.numSectors * 128 ∧ hdr.numSectors ≤ 61 ∧
  (hdr.dataSectors lastSlot = -1 ↔ hdr.numSectors < 29) ∧
  (29 ≤ hdr.numSectors → 0 ≤ hdr.dataSectors lastSlot) ∧
  w.findLog = w0.findLog ++ hdr.addressed w ∧
  Tracks w0 w

/-- The sector that holds data block `k` of the file, as `ByteToSector` resolves it: the
direct entry `k` below 29, else entry `k - 29` of the indirect block stored at sector
`dataSectors[29]`. -/
def FileHeader.blockSector (hdr : FileHeader) (w : World) (k : Int) : Int :=
  if k < 29 then peek hdr.dataSectors k
  else peek (w.disk (hdr.dataSectors lastSlot).toNat) (k - 29)

/-- The slack `numSectors * SectorSize - numBytes` that `AppendSector` calls `restLength`. -/
def FileHeader.restLength (hdr : FileHeader) : Int :=
  hdr.numSectors * SectorSize - hdr.numBytes

/-- The sector count `numSectors + appendSectors` after `AppendSector(n)` has grown the
file. -/
def FileHeader.grown (hdr : FileHeader) (n : Int) : Int :=
  hdr.numSectors + divRoundUp (n - hdr.restLength) SectorSize

/-- An empty header, as `new FileHeader` leaves it before `Allocate`. -/
def hdrZero : FileHeader := ⟨0, 0, fun _ => 0⟩

/-- A world whose free map has `n` sectors, all free, with a zeroed disk and an empty
history. -/
def emptyWorld (n : Nat) : World := ⟨List.replicate n false, fun _ _ => 0, []⟩

/-- Some content for the uninitialised local array. -/
def junkZero : Block := fun _ => 7

/-- Header part of the outcome of a call, `hdrZero` on a fault. -/
def outHdr (r : Except Fault (Bool × FileHeader × World)) : FileHeader :=
  match r with
  | .ok (_, hdr, _) => hdr
  | .error _ => hdrZero

/-- World part of the outcome of a call, the empty world on a fault. -/
def outWorld (r : Except Fault (Bool × FileHeader × World)) : World :=
  match r with
  | .ok (_, _, w) => w
  | .error _ => emptyWorld 0

/-- The Boolean a call returned, `none` on a fault. -/
def returned (r : Except Fault (Bool × FileHeader × World)) : Option Bool :=
  match r with
  | .ok (b, _, _) => some b
  | .error _ => none

/-- Header after `Allocate(3000)` on 50 free sectors: 24 direct sectors. -/
def hdrA : FileHeader := outHdr (hdrZero.Allocate (emptyWorld 50) 3000 junkZero)

/-- World after `Allocate(3000)` on 50 free sectors. -/
def wA : World := outWorld (hdrZero.Allocate (emptyWorld 50) 3000 junkZero)

/-- Header after `Allocate(3000)` then `AppendSector(2000)`: 40 sectors, indirection engaged. -/
def hdrB : FileHeader := outHdr (hdrA.AppendSector wA 2000 junkZero)

/-- World after `Allocate(3000)` then `AppendSector(2000)`. -/
def wB : World := outWorld (hdrA.AppendSector wA 2000 junkZero)

/-- Header after `Allocate(3840)`, a 30-sector file, on exactly 30 free sectors. -/
def hdrFit : FileHeader := outHdr (hdrZero.Allocate (emptyWorld 30) 3840 junkZero)

/-- World after `Allocate(3840)` on exactly 30 free sectors. -/
def wFit : World := outWorld (hdrZero.Allocate (emptyWorld 30) 3840 junkZero)

/-- Header after `Allocate(3968)`, a 31-sector file, on exactly 31 free sectors. -/
def hdrFull : FileHeader := outHdr (hdrZero.Allocate (emptyWorld 31) 3968 junkZero)

/-- World after `Allocate(3968)` on exactly 31 free sectors. -/
def wFull : World := outWorld (hdrZero.Allocate (emptyWorld 31) 3968 junkZero)

/-- Header after `Allocate(3000)` on exactly 40 free sectors: 24 direct sectors, 16 left. -/
def hdrTight : FileHeader := outHdr (hdrZero.Allocate (emptyWorld 40) 3000 junkZero)

/-- World after `Allocate(3000)` on exactly 40 free sectors. -/
def wTight : World := outWorld (hdrZero.Allocate (emptyWorld 40) 3000 junkZero)

/-- Header after `Allocate(3712)`, a file of exactly 29 sectors, on 40 free sectors. -/
def hdrEdge : FileHeader := outHdr (hdrZero.Allocate (emptyWorld 40) 3712 junkZero)

/-- World after `Allocate(3712)` on 40 free sectors. -/
def wEdge : World := outWorld (hdrZero.Allocate (emptyWorld 40) 3712 junkZero)

/-- Modelled from the spec: the object layout of class `FileHeader`, declared in `filehdr.h`
(absent from the sources). The spec fixes it: one sector holds `byteLength`, then
`sectorCount`, then the `direct[D]` table, each entry one integer. This is what the cast
`(char *)this` hands to the disk. -/
def FileHeader.image (hdr : FileHeader) : Block :=
  fun j =>
    if h : 2 ≤ j.val then hdr.dataSectors ⟨j.val - 2, by have hj : j.val < 32 := j.isLt; show j.val - 2 < 30; omega⟩
    else if j.val = 0 then hdr.numBytes else hdr.numSectors

/-- Modelled from the spec: the same layout read the other way, a sector's content overlaid
on the object through `(char *)this`. -/
def FileHeader.ofImage (blk : Block) : FileHeader :=
  ⟨blk ⟨0, by decide⟩, blk ⟨1, by decide⟩, fun k => blk ⟨k.val + 2, by have hk : k.val < 30 := k.isLt; show k.val + 2 < 32; omega⟩⟩

/-- The method `FileHeader::FetchFrom(int sector)`: the sector is read over the object. -/
def FileHeader.FetchFrom (_hdr : FileHeader) (w : World) (sector : Int) :
    Except Fault (FileHeader × World) :=
  match w.ReadSector sector with
  | .error e => .error e
  | .ok blk => .ok (FileHeader.ofImage blk, w)

/-- The method `FileHeader::WriteBack(int sector)`: the object is written to the sector. -/
def FileHeader.WriteBack (hdr : FileHeader) (w : World) (sector : Int) :
    Except Fault (FileHeader × World) :=
  match w.WriteSector sector hdr.image with
  | .error e => .error e
  | .ok w1 => .ok (hdr, w1)

/-- The values returned by `k` successive calls of `Find`, oldest first, and the free map
they leave. -/
def findN : Nat → BitMap → List Int × BitMap
  | 0, bm => ([], bm)
  | k + 1, bm => ((findN k bm).1 ++ [(findN k bm).2.Find.1], (findN k bm).2.Find.2)

/-- The free map and the ghost history of `w` are those of `w0` after some number of calls
of `Find` and nothing else. -/
def Steps (w0 w : World) : Prop :=
  ∃ k, w.findLog = w0.findLog ++ (findN k w0.freeMap).1 ∧ w.freeMap = (findN k w0.freeMap).2

/-- The number of free sectors a growth to `grown n` sectors takes: one per added data
sector, and one for the indirect block when the call is the one that engages it. -/
def FileHeader.growthNeed (hdr : FileHeader) (n : Int) : Int :=
  hdr.grown n - hdr.numSectors +
    (if hdr.dataSectors lastSlot = -1 ∧ 29 ≤ hdr.grown n then 1 else 0)

/-- The world after `Allocate(3000)` and `AppendSector(2000)` with the bit of sector 35, the
file's sixth indirect entry, cleared behind the header's back. -/
def wLostEntry : World := ⟨wB.freeMap.set 35 false, wB.disk, wB.findLog⟩

/-- The same world with the bit of sector 29, the indirect block itself, cleared instead. -/
def wLostBlock : World := ⟨wB.freeMap.set 29 false, wB.disk, wB.findLog⟩

/-- The same world with the bit of sector 3, a direct entry, cleared instead. -/
def wLostDirect : World := ⟨wB.freeMap.set 3 false, wB.disk, wB.findLog⟩

/-- Whether a call of `Deallocate` returned, and if not how it ended. -/
def ending (r : Except Fault (FileHeader × World)) : Option Fault :=
  match r with
  | .ok _ => none
  | .error e => some e

/-- Header after `Allocate(7000)` on 70 free sectors: 55 sectors, indirection engaged. -/
def hdrBig : FileHeader := outHdr (hdrZero.Allocate (emptyWorld 70) 7000 junkZero)

/-- World after `Allocate(7000)` on 70 free sectors: 14 sectors left. -/
def wBig : World := outWorld (hdrZero.Allocate (emptyWorld 70) 7000 junkZero)

/-- The value a 32-bit `int` holds after an operation whose mathematical result is `x`:
two's-complement wrap-around, as on the usual build (ISO C++ leaves signed overflow
undefined). -/
def wrap32 (x : Int) : Int := (x + 2147483648) % 4294967296 - 2147483648

/-- The integer `x` is a value of the 32-bit type `int`. -/
def IsInt32 (x : Int) : Prop := -2147483648 ≤ x ∧ x ≤ 2147483647

/-- The method `FileHeader::AppendSector(BitMap *bitMap, int fileSize)` with every `int`
operation of the source wrapped to 32 bits; apart from `wrap32` it is `AppendSector` word for
word. The loops need no wrapping: `i` only counts up to a bound that is an `int`. -/
def FileHeader.AppendSector32 (hdr : FileHeader) (w : World) (fileSize : Int) (junk : Block) :
    Except Fault (Bool × FileHeader × World) :=
  if fileSize ≤ 0 then .ok (false, hdr, w)
  else
    let totalLength := wrap32 (hdr.numSectors * SectorSize)
    let restLength := wrap32 (totalLength - hdr.numBytes)
    if restLength < fileSize then
      let appendLength := wrap32 (fileSize - restLength)
      let appendSectors := divRoundUp appendLength SectorSize
      if w.freeMap.NumClear < appendSectors then .ok (false, hdr, w)
      else if overCapacity (wrap32 (hdr.numSectors + appendSectors)) then
        .ok (false, hdr, w)
      else
        let i := hdr.numSectors
        let numBytes := wrap32 (hdr.numBytes + fileSize)
        let numSectors := wrap32 (hdr.numSectors + appendSectors)
        let lastIndex : Int := (NumDirect : Int) - 1
        if hdr.dataSectors lastSlot = -1 then
          if numSectors < lastIndex then
            match findLoop (numSectors - i).toNat i hdr.dataSectors w with
            | .error e => .error e
            | .ok (ds, w1) => .ok (true, ⟨numBytes, numSectors, ds⟩, w1)
          else
            match findLoop (lastIndex - i).toNat i hdr.dataSectors w with
            | .error e => .error e
            | .ok (ds, w1) =>
              let i1 := if i < lastIndex then lastIndex else i
              let ds1 := put ds lastSlot w1.Find.1
              match findLoop (numSectors - i1).toNat (wrap32 (i1 - lastIndex)) junk w1.Find.2 with
              | .error e => .error e
              | .ok (ds2, w3) =>
                match w3.WriteSector (ds1 lastSlot) ds2 with
                | .error e => .error e
                | .ok w4 => .ok (true, ⟨numBytes, numSectors, ds1⟩, w4)
        else
          match w.ReadSector (hdr.dataSectors lastSlot) with
          | .error e => .error e
          | .ok blk =>
            match findLoop (numSectors - i).toNat (wrap32 (i - lastIndex)) blk w with
            | .error e => .error e
            | .ok (ds2, w1) =>
              match w1.WriteSector (hdr.dataSectors lastSlot) ds2 with
              | .error e => .error e
              | .ok w2 => .ok (true, ⟨numBytes, numSectors, hdr.dataSectors⟩, w2)
    else
      .ok (true, ⟨wrap32 (hdr.numBytes + fileSize), hdr.numSectors, hdr.dataSectors⟩, w)

/-- A header no operation produces but a sector can hold: no bytes, 2^24 sectors, the
sentinel in every entry of the table. -/
def hdrHuge : FileHeader := ⟨0, 16777216, fun _ => -1⟩

/-! ## Tables and segments -/

theorem overCapacity_eq_true (n : Int) : overCapacity n = true ↔ (n < 0 ∨ 62 ≤ n) := by
  unfold overCapacity
  simp only [Bool.or_eq_true, decide_eq_true_eq]
  push_cast
  omega

theorem overCapacity_ne_true (n : Int) : ¬ overCapacity n = true ↔ (0 ≤ n ∧ n ≤ 61) := by
  rw [overCapacity_eq_true]
  omega

theorem loadAt_eq {n : Nat} (t : Fin n → Int) (i : Int) (h : 0 ≤ i ∧ i < (n : Int)) :
    loadAt t i = .ok (peek t i) := by
  simp [loadAt, peek, h]

theorem loadAt_ok {n : Nat} {t : Fin n → Int} {i v : Int} (h : loadAt t i = .ok v) :
    (0 ≤ i ∧ i < (n : Int)) ∧ v = peek t i := by
  unfold loadAt at h
  split at h
  · rename_i hr
    refine ⟨hr, ?_⟩
    simp [peek, hr]
    injection h with h
    exact h.symm
  · cases h

theorem storeAt_ok {n : Nat} {t t1 : Fin n → Int} {i v : Int} (h : storeAt t i v = .ok t1) :
    (0 ≤ i ∧ i < (n : Int)) ∧ peek t1 i = v ∧
      ∀ j : Int, j ≠ i → peek t1 j = peek t j := by
  unfold storeAt at h
  split at h
  · rename_i hr
    injection h with h
    subst h
    refine ⟨hr, ?_, ?_⟩
    · simp [peek, hr, put]
    · intro j hj
      unfold peek
      split
      · rename_i hjr
        have : (⟨j.toNat, by omega⟩ : Fin n) ≠ ⟨i.toNat, by omega⟩ := by
          intro hc
          have := congrArg Fin.val hc
          simp at this
          omega
        simp [put, this]
      · rfl
  · cases h

theorem storeAt_eq {n : Nat} (t : Fin n → Int) (i v : Int) (h : 0 ≤ i ∧ i < (n : Int)) :
    ∃ t1, storeAt t i v = .ok t1 := by
  simp [storeAt, h]

theorem peek_put_same {n : Nat} (t : Fin n → Int) (j : Fin n) (v : Int) :
    peek (put t j v) (j : Int) = v := by
  have h : 0 ≤ ((j : Nat) : Int) ∧ ((j : Nat) : Int) < (n : Int) := by
    have := j.isLt
    omega
  simp [peek, h, put]

theorem peek_put_other {n : Nat} (t : Fin n → Int) (j : Fin n) (v : Int) (i : Int)
    (hi : i ≠ (j : Int)) : peek (put t j v) i = peek t i := by
  unfold peek
  split
  · rename_i hr
    have : (⟨i.toNat, by omega⟩ : Fin n) ≠ j := by
      intro hc
      have := congrArg Fin.val hc
      simp at this
      omega
    simp [put, this]
  · rfl

theorem peek_fin {n : Nat} (t : Fin n → Int) (j : Fin n) : peek t (j : Int) = t j := by
  have h : 0 ≤ ((j : Nat) : Int) ∧ ((j : Nat) : Int) < (n : Int) := by
    have := j.isLt
    omega
  simp [peek, h]

theorem seg_congr {n : Nat} (t t1 : Fin n → Int) (cnt : Nat) (idx : Int)
    (h : ∀ j : Int, idx ≤ j → j < idx + cnt → peek t1 j = peek t j) :
    seg t1 cnt idx = seg t cnt idx := by
  induction cnt generalizing idx with
  | zero => rfl
  | succ c ih =>
    simp only [seg]
    rw [h idx (le_refl _) (by push_cast; omega), ih (idx + 1)]
    intro j h1 h2
    exact h j (by omega) (by push_cast; omega)

theorem seg_append {n : Nat} (t : Fin n → Int) (a b : Nat) (idx : Int) :
    seg t (a + b) idx = seg t a idx ++ seg t b (idx + a) := by
  induction a generalizing idx with
  | zero => simp [seg]
  | succ c ih =>
    have : c + 1 + b = (c + b) + 1 := by omega
    rw [this]
    simp only [seg, List.cons_append]
    rw [ih (idx + 1)]
    have : idx + 1 + (c : Int) = idx + ((c + 1 : Nat) : Int) := by push_cast; omega
    rw [this]

theorem seg_length {n : Nat} (t : Fin n → Int) (cnt : Nat) (idx : Int) :
    (seg t cnt idx).length = cnt := by
  induction cnt generalizing idx with
  | zero => rfl
  | succ c ih => simp [seg, ih]

theorem seg_getElem? {n : Nat} (t : Fin n → Int) (cnt : Nat) (idx : Int) (k : Nat)
    (hk : k < cnt) : (seg t cnt idx)[k]? = some (peek t (idx + k)) := by
  induction cnt generalizing idx k with
  | zero => omega
  | succ c ih =>
    cases k with
    | zero => simp [seg]
    | succ k =>
      simp only [seg, List.getElem?_cons_succ]
      rw [ih (idx + 1) k (by omega)]
      congr 2
      push_cast
      omega

/-! ## The free map -/

theorem firstClear_some {bm : List Bool} {i : Nat} (h : firstClear bm = some i) :
    i < bm.length ∧ bm.getD i false = false := by
  induction bm generalizing i with
  | nil => simp [firstClear] at h
  | cons b bs ih =>
    cases b with
    | false =>
      simp [firstClear] at h
      subst h
      simp
    | true =>
      simp only [firstClear, Option.map_eq_some'] at h
      obtain ⟨k, hk, rfl⟩ := h
      have := ih hk
      simpa using this

theorem firstClear_none {bm : List Bool} (h : firstClear bm = none) : bm.count false = 0 := by
  induction bm with
  | nil => rfl
  | cons b bs ih =>
    cases b with
    | false => simp [firstClear] at h
    | true =>
      simp only [firstClear, Option.map_eq_none'] at h
      simp [ih h]

theorem getD_set_bool (bm : List Bool) (i j : Nat) (v : Bool) :
    (bm.set i v).getD j false = if i = j ∧ i < bm.length then v else bm.getD j false := by
  simp only [List.getD_eq_getElem?_getD, List.getElem?_set]
  by_cases hij : i = j
  · subst hij
    by_cases hi : i < bm.length
    · simp [hi]
    · simp [hi]
      have : bm[i]? = none := by simp; omega
      simp [this]
  · simp [hij]

theorem Find_cases (bm : BitMap) :
    (bm.Find = (-1, bm) ∧ bm.count false = 0) ∨
    (∃ i : Nat, bm.Find = ((i : Int), bm.set i true) ∧ i < bm.length ∧ bm.getD i false = false) := by
  unfold BitMap.Find
  cases h : firstClear bm with
  | none => exact Or.inl ⟨rfl, firstClear_none h⟩
  | some i => exact Or.inr ⟨i, rfl, firstClear_some h⟩

theorem Marked.base (b0 : BitMap) : Marked b0 [] b0 := by
  refine ⟨List.nodup_nil, rfl, ?_, ?_⟩
  · intro x hx
    cases hx
  · intro j _
    simp

theorem Marked.eq_of_nil {b0 bm : BitMap} (h : Marked b0 [] bm) : bm = b0 := by
  obtain ⟨_, hlen, _, hpt⟩ := h
  apply List.ext_getElem hlen
  intro j h1 h2
  have := hpt j h2
  simp only [List.not_mem_nil, or_false] at this
  rw [List.getD_eq_getElem _ _ h1, List.getD_eq_getElem _ _ h2] at this
  exact Bool.eq_iff_iff.mpr this

theorem Marked.after_find {b0 bm : BitMap} {l : List Int} (h : Marked b0 l bm)
    (hne : bm.Find.1 ≠ -1) : Marked b0 (l ++ [bm.Find.1]) bm.Find.2 := by
  obtain ⟨hnd, hlen, hel, hpt⟩ := h
  rcases Find_cases bm with ⟨hf, _⟩ | ⟨i, hf, hi, hbit⟩
  · rw [hf] at hne
    exact absurd rfl hne
  · rw [hf]
    simp only
    have hi0 : i < b0.length := by omega
    have hpi := hpt i hi0
    rw [hbit] at hpi
    simp only [Bool.false_eq_true, false_iff, not_or] at hpi
    refine ⟨?_, ?_, ?_, ?_⟩
    · rw [List.nodup_append]
      refine ⟨hnd, List.nodup_singleton _, ?_⟩
      intro x hx hx1
      simp only [List.mem_singleton] at hx1
      subst hx1
      exact hpi.2 hx
    · simp [hlen]
    · intro x hx
      rw [List.mem_append] at hx
      rcases hx with hx | hx
      · exact hel x hx
      · simp only [List.mem_singleton] at hx
        subst hx
        refine ⟨by omega, by omega, ?_⟩
        simp only [Int.toNat_ofNat]
        cases hb : b0.getD i false with
        | false => rfl
        | true => exact absurd hb hpi.1
    · intro j hj
      rw [getD_set_bool, List.mem_append, List.mem_singleton]
      by_cases hij : i = j
      · subst hij
        simp [hi]
      · have : ¬ ((j : Int) = (i : Int)) := by omega
        simp only [hij, false_and, if_false, this, or_false]
        exact hpt j hj

theorem Marked.clear_head {b0 bm : BitMap} {x : Int} {l : List Int}
    (h : Marked b0 (x :: l) bm) :
    bm.Test x = .ok true ∧ bm.Clear x = .ok (bm.set x.toNat false) ∧
      Marked b0 l (bm.set x.toNat false) := by
  obtain ⟨hnd, hlen, hel, hpt⟩ := h
  obtain ⟨hx0, hx1, hxb⟩ := hel x (List.mem_cons_self _ _)
  have hxr : 0 ≤ x ∧ x < (bm.length : Int) := by omega
  have hxn : x.toNat < b0.length := by omega
  have hxc : ((x.toNat : Nat) : Int) = x := Int.toNat_of_nonneg hx0
  rw [List.nodup_cons] at hnd
  refine ⟨?_, ?_, hnd.2, ?_, ?_, ?_⟩
  · have := (hpt x.toNat hxn).mpr (Or.inr (by rw [hxc]; exact List.mem_cons_self _ _))
    rw [BitMap.Test, if_pos hxr, this]
  · simp [BitMap.Clear, hxr]
  · simp [hlen]
  · intro y hy
    exact hel y (List.mem_cons_of_mem _ hy)
  · intro j hj
    rw [getD_set_bool]
    by_cases hij : x.toNat = j
    · subst hij
      have hlt : x.toNat < bm.length := by omega
      simp only [hlt, and_self, if_true, Bool.false_eq_true, false_iff, not_or, hxc]
      exact ⟨by rw [hxb]; simp, hnd.1⟩
    · simp only [hij, false_and, if_false]
      rw [hpt j hj]
      have : ¬ ((j : Int) = x) := by omega
      simp [this]

/-! ## Loops -/

theorem Tracks.start (w0 : World) : Tracks w0 w0 :=
  ⟨[], by simp, fun _ => Marked.base _⟩

theorem Tracks.step {w0 w : World} (h : Tracks w0 w) : Tracks w0 w.Find.2 := by
  obtain ⟨l, hlog, hm⟩ := h
  refine ⟨l ++ [w.freeMap.Find.1], ?_, ?_⟩
  · simp [World.Find, hlog]
  · intro hclean
    rw [List.mem_append, not_or, List.mem_singleton] at hclean
    exact Marked.after_find (hm hclean.1) (fun hc => hclean.2 hc.symm)

theorem WriteSector_ok {w w1 : World} {s : Int} {blk : Block}
    (h : w.WriteSector s blk = .ok w1) :
    0 ≤ s ∧ w1.freeMap = w.freeMap ∧ w1.findLog = w.findLog ∧
      w1.disk s.toNat = blk ∧ ∀ k : Nat, k ≠ s.toNat → w1.disk k = w.disk k := by
  unfold World.WriteSector at h
  split at h
  · rename_i hs
    injection h with h
    subst h
    refine ⟨hs, rfl, rfl, by simp, ?_⟩
    intro k hk
    simp [hk]
  · cases h

theorem ReadSector_ok {w : World} {s : Int} {blk : Block} (h : w.ReadSector s = .ok blk) :
    0 ≤ s ∧ blk = w.disk s.toNat := by
  unfold World.ReadSector at h
  split at h
  · rename_i hs
    injection h with h
    exact ⟨hs, h.symm⟩
  · cases h

theorem Tracks.write {w0 w w1 : World} {s : Int} {blk : Block} (h : Tracks w0 w)
    (hw : w.WriteSector s blk = .ok w1) : Tracks w0 w1 := by
  obtain ⟨_, hfm, hlog, _, _⟩ := WriteSector_ok hw
  obtain ⟨l, h1, h2⟩ := h
  exact ⟨l, by rw [hlog, h1], by rw [hfm]; exact h2⟩

theorem findLoop_spec {n : Nat} (w0 : World) (cnt : Nat) (idx : Int) (t : Fin n → Int)
    (w : World) (t1 : Fin n → Int) (w1 : World) (h : findLoop cnt idx t w = .ok (t1, w1)) :
    w1.disk = w.disk ∧ w1.findLog = w.findLog ++ seg t1 cnt idx ∧
      (∀ j : Int, (j < idx ∨ idx + cnt ≤ j) → peek t1 j = peek t j) ∧
      (0 < cnt → 0 ≤ idx ∧ idx + cnt ≤ (n : Int)) ∧
      (Tracks w0 w → Tracks w0 w1) := by
  induction cnt generalizing idx t w with
  | zero =>
    simp only [findLoop] at h
    injection h with h
    injection h with h1 h2
    subst h1 h2
    simp [seg]
  | succ c ih =>
    simp only [findLoop] at h
    split at h
    · cases h
    · rename_i t2 hst
      obtain ⟨hr, hsame, hother⟩ := storeAt_ok hst
      obtain ⟨hd, hlog, hfr, hb, htr⟩ := ih (idx + 1) t2 w.Find.2 h
      refine ⟨?_, ?_, ?_, ?_, ?_⟩
      · rw [hd]
        rfl
      · rw [hlog]
        have hp : peek t1 idx = w.Find.1 := by
          rw [hfr idx (Or.inl (by omega)), hsame]
        simp [seg, hp, World.Find]
      · intro j hj
        rw [hfr j (by push_cast at hj; omega), hother j (by push_cast at hj; omega)]
      · intro _
        have := hb
        push_cast
        by_cases hc : 0 < c
        · have := hb hc
          omega
        · have : c = 0 := by omega
          subst this
          simp
          omega
      · intro h0
        exact htr (Tracks.step h0)

theorem findLoop_total {n : Nat} (cnt : Nat) (idx : Int) (t : Fin n → Int) (w : World)
    (h : 0 < cnt → 0 ≤ idx ∧ idx + cnt ≤ (n : Int)) :
    ∃ t1 w1, findLoop cnt idx t w = .ok (t1, w1) := by
  induction cnt generalizing idx t w with
  | zero => exact ⟨t, w, rfl⟩
  | succ c ih =>
    have hr := h (by omega)
    push_cast at hr
    obtain ⟨t2, ht2⟩ := storeAt_eq t idx w.Find.1 ⟨hr.1, by omega⟩
    simp only [findLoop, ht2]
    exact ih (idx + 1) t2 w.Find.2 (fun _ => ⟨by omega, by omega⟩)

theorem clearLoopChecked_marked {n : Nat} (b0 : BitMap) (cnt : Nat) (idx : Int)
    (t : Fin n → Int) (bm : BitMap) (rest : List Int)
    (hb : 0 < cnt → 0 ≤ idx ∧ idx + cnt ≤ (n : Int))
    (hm : Marked b0 (seg t cnt idx ++ rest) bm) :
    ∃ bm1, clearLoopChecked cnt idx t bm = .ok bm1 ∧ Marked b0 rest bm1 := by
  induction cnt generalizing idx bm with
  | zero => exact ⟨bm, rfl, by simpa [seg] using hm⟩
  | succ c ih =>
    have hr := hb (by omega)
    push_cast at hr
    simp only [seg, List.cons_append] at hm
    obtain ⟨htest, hclear, hm1⟩ := Marked.clear_head hm
    simp only [clearLoopChecked, loadAt_eq t idx ⟨hr.1, by omega⟩, htest, hclear]
    exact ih (idx + 1) _ (fun _ => ⟨by omega, by omega⟩) hm1

theorem clearLoop_marked {n : Nat} (b0 : BitMap) (cnt : Nat) (idx : Int)
    (t : Fin n → Int) (bm : BitMap) (rest : List Int)
    (hb : 0 < cnt → 0 ≤ idx ∧ idx + cnt ≤ (n : Int))
    (hm : Marked b0 (seg t cnt idx ++ rest) bm) :
    ∃ bm1, clearLoop cnt idx t bm = .ok bm1 ∧ Marked b0 rest bm1 := by
  induction cnt generalizing idx bm with
  | zero => exact ⟨bm, rfl, by simpa [seg] using hm⟩
  | succ c ih =>
    have hr := hb (by omega)
    push_cast at hr
    simp only [seg, List.cons_append] at hm
    obtain ⟨_, hclear, hm1⟩ := Marked.clear_head hm
    simp only [clearLoop, loadAt_eq t idx ⟨hr.1, by omega⟩, hclear]
    exact ih (idx + 1) _ (fun _ => ⟨by omega, by omega⟩) hm1

/-! ## Allocate -/

theorem lastSlot_val : ((lastSlot : Fin NumDirect) : Int) = 29 := rfl

theorem divRoundUp_spec (n : Int) :
    n ≤ divRoundUp n SectorSize * 128 ∧ divRoundUp n SectorSize * 128 < n + 128 := by
  unfold divRoundUp SectorSize
  omega

theorem put_same {n : Nat} (t : Fin n → Int) (j : Fin n) (v : Int) : put t j v j = v := by
  simp [put]

theorem seg_put_lastSlot (t : Fin NumDirect → Int) (v : Int) (cnt : Nat) (idx : Int)
    (h : idx + cnt ≤ 29) : seg (put t lastSlot v) cnt idx = seg t cnt idx := by
  apply seg_congr
  intro j _ hj1
  exact peek_put_other _ _ _ _ (by rw [lastSlot_val]; omega)

theorem Allocate_ok {hdr0 hdr : FileHeader} {w0 w : World} {a : Int} {junk : Block}
    (h : hdr0.Allocate w0 a junk = .ok (true, hdr, w)) :
    hdr.numBytes = a ∧ hdr.numSectors = divRoundUp a SectorSize ∧
      hdr.numSectors ≤ w0.freeMap.NumClear ∧ Inv w0 hdr w := by
  have hdiv := divRoundUp_spec a
  unfold FileHeader.Allocate at h
  simp only at h
  split at h
  · cases h
  rename_i hfree
  split at h
  · cases h
  rename_i hcap
  rw [overCapacity_ne_true] at hcap
  split at h
  · rename_i hlt
    split at h
    · cases h
    rename_i ds w1 hloop
    injection h with h
    simp only [Prod.mk.injEq, true_and] at h
    obtain ⟨rfl, rfl⟩ := h
    obtain ⟨_, hlog, hfr, _, htr⟩ := findLoop_spec w0 _ _ _ _ _ _ hloop
    simp only [sub_zero] at hlog hfr
    push_cast at hlt
    unfold Inv
    refine ⟨rfl, rfl, ?_, ?_, ?_, ?_, ?_, ?_, htr (Tracks.start _)⟩ <;> (try dsimp only)
    · omega
    · omega
    · omega
    · simp only [put_same, true_iff]
      omega
    · intro h29
      omega
    · simp only [FileHeader.addressed, put_same, if_true, List.append_nil]
      have hmin : min (divRoundUp a SectorSize).toNat 29 = (divRoundUp a SectorSize).toNat := by
        omega
      rw [hlog, hmin, seg_put_lastSlot _ _ _ _ (by omega)]
  · rename_i hge
    push_cast at hge
    split at h
    · cases h
    rename_i ds w1 hloop
    split at h
    · cases h
    rename_i ds2 w3 hloop2
    split at h
    · cases h
    rename_i w4 hwr
    injection h with h
    simp only [Prod.mk.injEq, true_and] at h
    obtain ⟨rfl, rfl⟩ := h
    obtain ⟨_, hlog, hfr, _, htr⟩ := findLoop_spec w0 _ _ _ _ _ _ hloop
    obtain ⟨_, hlog2, hfr2, _, htr2⟩ := findLoop_spec w0 _ _ _ _ _ _ hloop2
    obtain ⟨hs0, hfm4, hlog4, hd4, _⟩ := WriteSector_ok hwr
    simp only [put_same] at hs0 hd4
    simp only [sub_zero] at hlog hlog2
    have hne : ¬ (w1.Find.1 = -1) := by
      intro hc
      rw [hc] at hs0
      omega
    unfold Inv
    refine ⟨rfl, rfl, ?_, ?_, ?_, ?_, ?_, ?_,
      Tracks.write (htr2 (Tracks.step (htr (Tracks.start _)))) hwr⟩ <;> (try dsimp only)
    · omega
    · omega
    · omega
    · simp only [put_same, hne, false_iff]
      omega
    · intro _
      simpa [put_same] using hs0
    · simp only [FileHeader.addressed, put_same, hne, if_false]
      rw [hlog4, hlog2, hd4]
      have hmin : min (divRoundUp a SectorSize).toNat 29 = 29 := by omega
      have hcnt : ((NumDirect : Int) - 1).toNat = 29 := by decide
      have hcnt2 : (divRoundUp a SectorSize - ((NumDirect : Int) - 1)).toNat
          = (divRoundUp a SectorSize - 29).toNat := by
        congr 1
      rw [hmin, hcnt2]
      rw [hcnt] at hlog
      rw [seg_put_lastSlot _ _ _ _ (by omega)]
      simp [World.Find, hlog]

/-! ## AppendSector -/

theorem AppendSector_cases {hdr hdr1 : FileHeader} {w w1 : World} {n : Int} {junk : Block}
    (h : hdr.AppendSector w n junk = .ok (true, hdr1, w1)) :
    0 < n ∧ hdr1.numBytes = hdr.numBytes + n ∧
    ((n ≤ hdr.restLength ∧ hdr1.numSectors = hdr.numSectors ∧
        hdr1.dataSectors = hdr.dataSectors ∧ w1 = w) ∨
     (hdr.restLength < n ∧ hdr1.numSectors = hdr.grown n ∧
        hdr.grown n - hdr.numSectors ≤ w.freeMap.NumClear ∧ hdr.grown n ≤ 61 ∧
        ((hdr.dataSectors lastSlot = -1 ∧ hdr.grown n < 29 ∧
            findLoop (hdr.grown n - hdr.numSectors).toNat hdr.numSectors hdr.dataSectors w
              = .ok (hdr1.dataSectors, w1)) ∨
         (hdr.dataSectors lastSlot = -1 ∧ 29 ≤ hdr.grown n ∧
            ∃ ds wa blk wb,
              findLoop (29 - hdr.numSectors).toNat hdr.numSectors hdr.dataSectors w
                = .ok (ds, wa) ∧
              hdr1.dataSectors = put ds lastSlot wa.Find.1 ∧
              findLoop (hdr.grown n - max hdr.numSectors 29).toNat (max hdr.numSectors 29 - 29)
                junk wa.Find.2 = .ok (blk, wb) ∧
              wb.WriteSector wa.Find.1 blk = .ok w1) ∨
         (hdr.dataSectors lastSlot ≠ -1 ∧ hdr1.dataSectors = hdr.dataSectors ∧
            ∃ blk wa, 0 ≤ hdr.dataSectors lastSlot ∧
              findLoop (hdr.grown n - hdr.numSectors).toNat (hdr.numSectors - 29)
                (w.disk (hdr.dataSectors lastSlot).toNat) w = .ok (blk, wa) ∧
              wa.WriteSector (hdr.dataSectors lastSlot) blk = .ok w1)))) := by
  unfold FileHeader.AppendSector at h
  split at h
  · cases h
  rename_i hpos
  simp only at h
  split at h
  · rename_i hrest
    split at h
    · cases h
    rename_i hfree
    split at h
    · cases h
    rename_i hcap
    rw [overCapacity_ne_true] at hcap
    have hg : hdr.grown n = hdr.numSectors +
        divRoundUp (n - (hdr.numSectors * SectorSize - hdr.numBytes)) SectorSize := rfl
    have hgc : ¬ (62 ≤ hdr.grown n) := by rw [hg]; omega
    have hgf : hdr.grown n - hdr.numSectors ≤ w.freeMap.NumClear := by rw [hg]; omega
    rw [← hg] at h
    split at h
    · rename_i h29
      split at h
      · rename_i hlt
        push_cast at hlt
        split at h
        · cases h
        rename_i ds wa hloop
        injection h with h
        simp only [Prod.mk.injEq, true_and] at h
        obtain ⟨rfl, rfl⟩ := h
        exact ⟨by omega, rfl, Or.inr ⟨hrest, rfl, hgf, by omega,
          Or.inl ⟨h29, by omega, hloop⟩⟩⟩
      · rename_i hge
        push_cast at hge
        split at h
        · cases h
        rename_i ds wa hloop
        split at h
        · cases h
        rename_i blk wb hloop2
        split at h
        · cases h
        rename_i w4 hwr
        injection h with h
        simp only [Prod.mk.injEq, true_and] at h
        obtain ⟨rfl, rfl⟩ := h
        refine ⟨by omega, rfl, Or.inr ⟨hrest, rfl, hgf, by omega,
          Or.inr (Or.inl ⟨h29, by omega, ds, wa, blk, wb, ?_, rfl, ?_, ?_⟩)⟩⟩
        · exact hloop
        · have hm : (if hdr.numSectors < (NumDirect : Int) - 1 then (NumDirect : Int) - 1
              else hdr.numSectors) = max hdr.numSectors 29 := by
            push_cast
            split <;> omega
          rw [hm] at hloop2
          exact hloop2
        · simpa [put_same] using hwr
    · rename_i h29
      split at h
      · cases h
      rename_i blk0 hrd
      split at h
      · cases h
      rename_i blk wa hloop
      split at h
      · cases h
      rename_i w2 hwr
      injection h with h
      simp only [Prod.mk.injEq, true_and] at h
      obtain ⟨rfl, rfl⟩ := h
      obtain ⟨hs0, rfl⟩ := ReadSector_ok hrd
      exact ⟨by omega, rfl, Or.inr ⟨hrest, rfl, hgf, by omega,
        Or.inr (Or.inr ⟨h29, rfl, blk, wa, hs0, hloop, hwr⟩)⟩⟩
  · rename_i hrest
    injection h with h
    simp only [Prod.mk.injEq, true_and] at h
    obtain ⟨rfl, rfl⟩ := h
    exact ⟨by omega, rfl, Or.inl ⟨by simpa [FileHeader.restLength] using hrest, rfl, rfl, rfl⟩⟩

theorem grown_spec (hdr : FileHeader) (n : Int) (h : hdr.restLength < n) :
    hdr.numSectors < hdr.grown n ∧
      hdr.numBytes + n ≤ hdr.grown n * 128 ∧ hdr.grown n * 128 < hdr.numBytes + n + 128 := by
  have := divRoundUp_spec (n - hdr.restLength)
  unfold FileHeader.grown
  unfold FileHeader.restLength SectorSize at *
  omega

theorem World.Find_findLog (w : World) : w.Find.2.findLog = w.findLog ++ [w.Find.1] := rfl

theorem World.Find_disk (w : World) : w.Find.2.disk = w.disk := rfl

theorem AppendSector_inv {w0 : World} {hdr hdr1 : FileHeader} {w w1 : World} {n : Int}
    {junk : Block} (h : hdr.AppendSector w n junk = .ok (true, hdr1, w1))
    (hinv : Inv w0 hdr w) :
    Inv w0 hdr1 w1 ∧
      ∀ k : Int, 0 ≤ k → k < hdr.numSectors → hdr1.blockSector w1 k = hdr.blockSector w k := by
  obtain ⟨hb, hc, h29, hs29, hlog, htr⟩ := hinv
  obtain ⟨hn, hbytes, hcase⟩ := AppendSector_cases h
  rcases hcase with ⟨hfit, hsec, hds, rfl⟩ | ⟨hrest, hsec, _, hcap, hbr⟩
  · refine ⟨⟨?_, by omega, by rw [hds, hsec]; exact h29, by rw [hds, hsec]; exact hs29, ?_, htr⟩, ?_⟩
    · unfold FileHeader.restLength SectorSize at hfit
      omega
    · rw [hlog]
      simp only [FileHeader.addressed, hds, hsec]
    · intro k _ _
      simp only [FileHeader.blockSector, hds]
  · obtain ⟨hgrow, hle, _⟩ := grown_spec hdr n hrest
    rcases hbr with ⟨hm1, hlt, hloop⟩ | ⟨hm1, hge, ds, wa, blk, wb, hloop, hds, hloop2, hwr⟩ |
      ⟨hne, hds, blk, wa, hs0, hloop, hwr⟩
    · -- growth inside the direct entries
      obtain ⟨hdisk, hlg, hfr, hbd, htr1⟩ := findLoop_spec w0 _ _ _ _ _ _ hloop
      have hc29 : hdr.numSectors < 29 := h29.mp hm1
      have hc0 := (hbd (by omega)).1
      have hl29 : hdr1.dataSectors lastSlot = -1 := by
        rw [← peek_fin hdr1.dataSectors lastSlot, ← hm1, ← peek_fin hdr.dataSectors lastSlot]
        exact hfr _ (Or.inr (by rw [lastSlot_val]; omega))
      refine ⟨⟨by omega, by omega, ?_, by omega, ?_, htr1 htr⟩, ?_⟩
      · rw [hl29, hsec]
        simp only [true_iff]
        exact hlt
      · rw [hlg, hlog]
        simp only [FileHeader.addressed, hl29, hm1, if_true, List.append_nil, hsec]
        have e1 : min (hdr.grown n).toNat 29 =
            min hdr.numSectors.toNat 29 + (hdr.grown n - hdr.numSectors).toNat := by omega
        rw [e1, seg_append, List.append_assoc]
        congr 2
        · symm
          apply seg_congr
          intro j hj0 hj1
          exact hfr j (Or.inl (by omega))
        · congr 1
          omega
      · intro k hk0 hk1
        have hk29 : k < 29 := by omega
        simp only [FileHeader.blockSector, hk29, if_true]
        exact hfr k (Or.inl hk1)
    · -- growth across the boundary
      obtain ⟨hdisk, hlg, hfr, hbd, htr1⟩ := findLoop_spec w0 _ _ _ _ _ _ hloop
      obtain ⟨hdisk2, hlg2, hfr2, hbd2, htr2⟩ := findLoop_spec w0 _ _ _ _ _ _ hloop2
      obtain ⟨hs0, hfm4, hlog4, hd4, _⟩ := WriteSector_ok hwr
      have hc29 : hdr.numSectors < 29 := h29.mp hm1
      have hc0 := (hbd (by omega)).1
      have hmax : max hdr.numSectors 29 = 29 := by omega
      rw [hmax] at hlg2
      have hne : ¬ (wa.Find.1 = -1) := by
        intro hc
        rw [hc] at hs0
        omega
      have hl29 : hdr1.dataSectors lastSlot = wa.Find.1 := by rw [hds, put_same]
      refine ⟨⟨by omega, by omega, ?_, ?_, ?_, Tracks.write (htr2 (Tracks.step (htr1 htr))) hwr⟩,
        ?_⟩
      · rw [hl29, hsec]
        simp only [hne, false_iff]
        omega
      · intro _
        rw [hl29]
        exact hs0
      · rw [hlog4, hlg2, World.Find_findLog, hlg, hlog]
        simp only [FileHeader.addressed, hl29, hne, if_false, hd4, hsec,
          hm1, if_true, List.append_nil]
        have e1 : min (hdr.grown n).toNat 29 =
            min hdr.numSectors.toNat 29 + (29 - hdr.numSectors).toNat := by omega
        have e2 : (0 : Int) + ((min hdr.numSectors.toNat 29 : Nat) : Int) = hdr.numSectors := by
          omega
        have hA : seg ds (min hdr.numSectors.toNat 29) 0 =
            seg hdr.dataSectors (min hdr.numSectors.toNat 29) 0 := by
          apply seg_congr
          intro j hj0 hj1
          exact hfr j (Or.inl (by omega))
        rw [e1, seg_append, hds, seg_put_lastSlot _ _ _ _ (by omega),
          seg_put_lastSlot _ _ _ _ (by omega), hA, e2]
        simp only [List.append_assoc, List.singleton_append, sub_self, List.cons_append,
          List.nil_append]
      · intro k hk0 hk1
        have hk29 : k < 29 := by omega
        simp only [FileHeader.blockSector, hk29, if_true]
        rw [hds, peek_put_other _ _ _ _ (by rw [lastSlot_val]; omega)]
        exact hfr k (Or.inl hk1)
    · -- growth inside the indirect block
      obtain ⟨hdisk, hlg, hfr, hbd, htr1⟩ := findLoop_spec w0 _ _ _ _ _ _ hloop
      obtain ⟨_, hfm4, hlog4, hd4, _⟩ := WriteSector_ok hwr
      have hc29 : 29 ≤ hdr.numSectors := by
        by_contra hc
        exact hne (h29.mpr (by omega))
      refine ⟨⟨by omega, by omega, ?_, ?_, ?_, Tracks.write (htr1 htr) hwr⟩, ?_⟩
      · rw [hds, hsec]
        simp only [hne, false_iff]
        omega
      · intro _
        rw [hds]
        exact hs0
      · rw [hlog4, hlg, hlog]
        simp only [FileHeader.addressed, hds, hne, if_false, hd4, hsec]
        have e1 : min (hdr.grown n).toNat 29 = min hdr.numSectors.toNat 29 := by omega
        have e2 : (hdr.grown n - 29).toNat =
            (hdr.numSectors - 29).toNat + (hdr.grown n - hdr.numSectors).toNat := by omega
        have e3 : (0 : Int) + (((hdr.numSectors - 29).toNat : Nat) : Int) = hdr.numSectors - 29 := by
          omega
        have hA : seg blk (hdr.numSectors - 29).toNat 0 =
            seg (w.disk (hdr.dataSectors lastSlot).toNat) (hdr.numSectors - 29).toNat 0 := by
          apply seg_congr
          intro j hj0 hj1
          exact hfr j (Or.inl (by omega))
        rw [e1, e2, seg_append, hA, e3]
        simp only [List.append_assoc, List.cons_append]
      · intro k hk0 hk1
        simp only [FileHeader.blockSector, hds, hd4]
        split
        · rfl
        · exact hfr _ (Or.inl (by omega))

/-! ## Reachable states, translation and rejection -/

theorem Reach.inv {w0 : World} {a : Int} {hdr : FileHeader} {w : World}
    (h : Reach w0 a hdr w) : Inv w0 hdr w := by
  induction h with
  | alloc hdr w ha =>
    obtain ⟨hdr0, junk, ha⟩ := ha
    exact (Allocate_ok ha).2.2.2
  | append hdr w hdr1 w1 _ hap ih =>
    obtain ⟨n, junk, hap⟩ := hap
    exact (AppendSector_inv hap ih).1

theorem Inv.finds_eq {w0 : World} {hdr : FileHeader} {w : World} (h : Inv w0 hdr w) :
    findsSince w0 w = hdr.addressed w := by
  unfold findsSince
  rw [h.2.2.2.2.1]
  simp

theorem Inv.marked {w0 : World} {hdr : FileHeader} {w : World} (h : Inv w0 hdr w)
    (hclean : (-1 : Int) ∉ findsSince w0 w) :
    Marked w0.freeMap (hdr.addressed w) w.freeMap := by
  obtain ⟨l, hl, hm⟩ := h.2.2.2.2.2
  have : l = hdr.addressed w := by
    have := h.2.2.2.2.1
    rw [hl] at this
    exact List.append_cancel_left this
  subst this
  rw [h.finds_eq] at hclean
  exact hm hclean

theorem ByteToSector_eq {w0 : World} {hdr : FileHeader} {w : World} (hinv : Inv w0 hdr w)
    (offset : Int) (h0 : 0 ≤ offset) (h1 : offset < hdr.numBytes) :
    hdr.ByteToSector w offset = .ok (hdr.blockSector w (offset / 128), hdr, w) := by
  obtain ⟨hb, hc, h29, hs29, _, _⟩ := hinv
  have hdiv : offset.tdiv SectorSize = offset / 128 := Int.tdiv_eq_ediv h0 (by decide)
  unfold FileHeader.ByteToSector FileHeader.blockSector
  simp only [hdiv]
  split
  · rename_i hlt
    have hlt1 : offset / 128 < 29 := by
      push_cast at hlt
      omega
    rw [loadAt_eq _ _ ⟨by omega, by push_cast; omega⟩]
    simp only [hlt1, if_true]
  · rename_i hge
    have hlt1 : ¬ (offset / 128 < 29) := by
      push_cast at hge
      omega
    have hs : 0 ≤ hdr.dataSectors lastSlot := hs29 (by omega)
    have e : offset / 128 - ((NumDirect : Int) - 1) = offset / 128 - 29 := by
      push_cast
      omega
    simp only [World.ReadSector, hs, if_true, hlt1, if_false, e]
    rw [loadAt_eq _ _ ⟨by omega, by push_cast; omega⟩]

/-- C4. A request of more than 61 sectors (for instance 61*128 + 1 = 7809 bytes) makes
`Allocate` return `FALSE`, and the world after the call is the world before it: the free
map is the same, no `Find` call was made, and nothing was written to the disk. -/
theorem Allocate_over_capacity_rejected (hdr : FileHeader) (w : World) (fileSize : Int)
    (junk : Block) (h : 61 < divRoundUp fileSize SectorSize) :
    hdr.Allocate w fileSize junk =
      .ok (false, ⟨fileSize, divRoundUp fileSize SectorSize, hdr.dataSectors⟩, w) := by
  unfold FileHeader.Allocate
  simp only
  split
  · rfl
  · have : overCapacity (divRoundUp fileSize SectorSize) = true :=
      (overCapacity_eq_true _).mpr (Or.inr (by omega))
    simp only [this, if_true]

/-- Witness of C4 at the spec's own input, 7809 bytes on a map with 100 free sectors. -/
theorem Allocate_over_capacity_rejected_witness :
    hdrZero.Allocate (emptyWorld 100) 7809 junkZero =
      .ok (false, ⟨7809, divRoundUp 7809 SectorSize, hdrZero.dataSectors⟩, emptyWorld 100) :=
  Allocate_over_capacity_rejected hdrZero (emptyWorld 100) 7809 junkZero (by decide)

/-- C5. When `AppendSector` returns `FALSE` the header (`numBytes`, `numSectors`, the whole
table `dataSectors`) and the world (free map, disk, history of `Find` calls) are exactly
what they were before the call, and the cause is one of: a non-positive size, fewer free
sectors than sectors to append, or the capacity test. -/
theorem AppendSector_failure_changes_nothing (hdr : FileHeader) (w : World) (fileSize : Int)
    (junk : Block) (hdr1 : FileHeader) (w1 : World)
    (h : hdr.AppendSector w fileSize junk = .ok (false, hdr1, w1)) :
    hdr1 = hdr ∧ w1 = w ∧
      (fileSize ≤ 0 ∨
        (hdr.restLength < fileSize ∧
          (w.freeMap.NumClear < hdr.grown fileSize - hdr.numSectors ∨
            overCapacity (hdr.grown fileSize) = true))) := by
  unfold FileHeader.AppendSector at h
  split at h
  · rename_i hle
    injection h with h
    simp only [Prod.mk.injEq, true_and] at h
    exact ⟨h.1.symm, h.2.symm, Or.inl hle⟩
  simp only at h
  have hg : hdr.grown fileSize = hdr.numSectors +
      divRoundUp (fileSize - (hdr.numSectors * SectorSize - hdr.numBytes)) SectorSize := rfl
  split at h
  · rename_i hrest
    split at h
    · rename_i hfree
      injection h with h
      simp only [Prod.mk.injEq, true_and] at h
      exact ⟨h.1.symm, h.2.symm, Or.inr ⟨hrest, Or.inl (by rw [hg]; omega)⟩⟩
    split at h
    · rename_i hcap
      injection h with h
      simp only [Prod.mk.injEq, true_and] at h
      exact ⟨h.1.symm, h.2.symm, Or.inr ⟨hrest, Or.inr (by rw [hg]; exact hcap)⟩⟩
    split at h
    · split at h
      · split at h
        · cases h
        · injection h with h
          simp at h
      · split at h
        · cases h
        · split at h
          · cases h
          · split at h
            · cases h
            · injection h with h
              simp at h
    · split at h
      · cases h
      · split at h
        · cases h
        · split at h
          · cases h
          · injection h with h
            simp at h
  · injection h with h
    simp at h

theorem reach_A : Reach (emptyWorld 50) 3000 hdrA wA :=
  Reach.alloc hdrA wA ⟨hdrZero, junkZero, by rfl⟩

theorem reach_B : Reach (emptyWorld 50) 3000 hdrB wB :=
  Reach.append hdrA wA hdrB wB reach_A ⟨2000, junkZero, by rfl⟩

theorem Reach.ceil {w0 : World} {a : Int} {hdr : FileHeader} {w : World}
    (h : Reach w0 a hdr w) (ha : 0 ≤ a) :
    0 ≤ hdr.numBytes ∧ hdr.numSectors = divRoundUp hdr.numBytes SectorSize := by
  induction h with
  | alloc hdr w hal =>
    obtain ⟨hdr0, junk, hal⟩ := hal
    obtain ⟨hb, hs, _, _⟩ := Allocate_ok hal
    rw [hb, hs]
    exact ⟨ha, rfl⟩
  | append hdr w hdr1 w1 _ hap ih =>
    obtain ⟨n, junk, hap⟩ := hap
    obtain ⟨hn, hbytes, hcase⟩ := AppendSector_cases hap
    obtain ⟨ih0, ih1⟩ := ih
    refine ⟨by omega, ?_⟩
    rcases hcase with ⟨hfit, hsec, _, _⟩ | ⟨hrest, hsec, _, _, _⟩
    · rw [hsec, hbytes, ih1]
      unfold FileHeader.restLength at hfit
      rw [ih1] at hfit
      unfold divRoundUp SectorSize at *
      omega
    · rw [hsec, hbytes]
      unfold FileHeader.grown FileHeader.restLength
      rw [ih1]
      unfold divRoundUp SectorSize
      omega

/-- C6. In a state reached by a successful `Allocate` and successful `AppendSector` calls in
which `Find` never signalled exhaustion, `ByteToSector(offset)` for `0 <= offset < numBytes`
returns `dataSectors[offset/128]` when `offset/128 < 29` and otherwise entry
`offset/128 - 29` of the block read from sector `dataSectors[29]`; that value is the one
`Find` returned for data block `offset/128` (the `Find` calls since the start of `Allocate`
serve blocks 0..28, then the indirect block, then blocks 29, 30, ...), it is not the
sentinel, the call leaves header and world as they were, and calling again gives the same
result. -/
theorem ByteToSector_translates_offset (w0 : World) (a : Int) (hdr : FileHeader) (w : World)
    (hr : Reach w0 a hdr w) (hclean : (-1 : Int) ∉ findsSince w0 w) (offset : Int)
    (h0 : 0 ≤ offset) (h1 : offset < hdr.numBytes) :
    ∃ s, hdr.ByteToSector w offset = .ok (s, hdr, w) ∧
      (offset / 128 < 29 → loadAt hdr.dataSectors (offset / 128) = .ok s) ∧
      (29 ≤ offset / 128 → ∃ blk, w.ReadSector (hdr.dataSectors lastSlot) = .ok blk ∧
        loadAt blk (offset / 128 - 29) = .ok s) ∧
      (findsSince w0 w)[(if offset / 128 < 29 then offset / 128 else offset / 128 + 1).toNat]?
        = some s ∧
      s ≠ -1 ∧
      (∀ s1 hdr1 w1, hdr.ByteToSector w offset = .ok (s1, hdr1, w1) →
        hdr1.ByteToSector w1 offset = .ok (s1, hdr1, w1)) := by
  have hinv := hr.inv
  have heq := ByteToSector_eq hinv offset h0 h1
  obtain ⟨hb, hc, h29, hs29, _, _⟩ := hinv
  have hlog : (findsSince w0 w)[(if offset / 128 < 29 then offset / 128
      else offset / 128 + 1).toNat]? = some (hdr.blockSector w (offset / 128)) := by
    rw [hr.inv.finds_eq]
    unfold FileHeader.addressed FileHeader.blockSector
    by_cases hk : offset / 128 < 29
    · simp only [hk, if_true]
      rw [List.getElem?_append_left (by rw [seg_length]; omega),
        seg_getElem? _ _ _ _ (by omega)]
      congr 2
      omega
    · have hne : ¬ (hdr.dataSectors lastSlot = -1) := by
        intro hcon
        have := h29.mp hcon
        omega
      simp only [hk, if_false, hne]
      rw [List.getElem?_append_right (by rw [seg_length]; omega), seg_length]
      have e : (offset / 128 + 1).toNat - min hdr.numSectors.toNat 29
          = (offset / 128 - 29).toNat + 1 := by omega
      rw [e, List.getElem?_cons_succ, seg_getElem? _ _ _ _ (by omega)]
      congr 2
      omega
  refine ⟨hdr.blockSector w (offset / 128), heq, ?_, ?_, hlog, ?_, ?_⟩
  · intro hk
    rw [loadAt_eq _ _ ⟨by omega, by push_cast; omega⟩]
    simp only [FileHeader.blockSector, hk, if_true]
  · intro hk
    have hs : 0 ≤ hdr.dataSectors lastSlot := hs29 (by omega)
    have hk1 : ¬ (offset / 128 < 29) := by omega
    refine ⟨w.disk (hdr.dataSectors lastSlot).toNat, by simp only [World.ReadSector, hs, if_true],
      ?_⟩
    rw [loadAt_eq _ _ ⟨by omega, by push_cast; omega⟩]
    simp only [FileHeader.blockSector, hk1, if_false]
  · intro hcon
    apply hclean
    rw [← hcon]
    exact List.getElem?_mem hlog
  · intro s1 hdr1 w1 h
    rw [heq] at h
    injection h with h
    simp only [Prod.mk.injEq] at h
    obtain ⟨rfl, rfl, rfl⟩ := h
    exact heq

/-- Witness of C6: byte 4999 of the 5000-byte file built by `Allocate(3000)` and
`AppendSector(2000)`, which lies in data block 39, the eleventh indirect entry. -/
theorem ByteToSector_translates_offset_witness :
    ∃ s, hdrB.ByteToSector wB 4999 = .ok (s, hdrB, wB) ∧
      ((4999 : Int) / 128 < 29 → loadAt hdrB.dataSectors (4999 / 128) = .ok s) ∧
      (29 ≤ (4999 : Int) / 128 → ∃ blk, wB.ReadSector (hdrB.dataSectors lastSlot) = .ok blk ∧
        loadAt blk (4999 / 128 - 29) = .ok s) ∧
      (findsSince (emptyWorld 50) wB)[(if (4999 : Int) / 128 < 29 then (4999 : Int) / 128
        else 4999 / 128 + 1).toNat]? = some s ∧
      s ≠ -1 ∧
      (∀ s1 hdr1 w1, hdrB.ByteToSector wB 4999 = .ok (s1, hdr1, w1) →
        hdr1.ByteToSector w1 4999 = .ok (s1, hdr1, w1)) :=
  ByteToSector_translates_offset (emptyWorld 50) 3000 hdrB wB reach_B (by decide) 4999
    (by decide) (by decide)

/-- C7. After a successful `AppendSector`, started in a state reached by a successful
`Allocate` and successful `AppendSector` calls, `ByteToSector(o)` returns for every offset
`0 <= o < numBytes` of the file before the call the sector it returned before the call;
this covers the three growth branches and the slack path. -/
theorem AppendSector_keeps_assigned_sectors (w0 : World) (a : Int) (hdr : FileHeader)
    (w : World) (hr : Reach w0 a hdr w) (n : Int) (junk : Block) (hdr1 : FileHeader)
    (w1 : World) (happ : hdr.AppendSector w n junk = .ok (true, hdr1, w1)) (offset : Int)
    (h0 : 0 ≤ offset) (h1 : offset < hdr.numBytes) :
    ∃ s, hdr.ByteToSector w offset = .ok (s, hdr, w) ∧
      hdr1.ByteToSector w1 offset = .ok (s, hdr1, w1) := by
  have hinv := hr.inv
  obtain ⟨hinv1, hfr⟩ := AppendSector_inv happ hinv
  obtain ⟨hn, hbytes, _⟩ := AppendSector_cases happ
  refine ⟨hdr.blockSector w (offset / 128), ByteToSector_eq hinv offset h0 h1, ?_⟩
  rw [ByteToSector_eq hinv1 offset h0 (by omega)]
  have hb := hinv.1
  rw [hfr (offset / 128) (by omega) (by omega)]

/-- Witness of C7: `AppendSector(2000)` takes the 24-sector file across the boundary, and
byte 2999 keeps its sector. -/
theorem AppendSector_keeps_assigned_sectors_witness :
    ∃ s, hdrA.ByteToSector wA 2999 = .ok (s, hdrA, wA) ∧
      hdrB.ByteToSector wB 2999 = .ok (s, hdrB, wB) :=
  AppendSector_keeps_assigned_sectors (emptyWorld 50) 3000 hdrA wA reach_A 2000 junkZero hdrB wB
    (by rfl) 2999 (by decide) (by decide)

/-- C10. After a successful `Allocate(a)` with `a >= 0` and after every later successful
`AppendSector`, `numBytes <= numSectors * 128`, `numBytes > (numSectors - 1) * 128` whenever
`numSectors > 0`, and `numSectors` is `divRoundUp(numBytes, 128)`. -/
theorem length_invariant_after_growth (w0 : World) (a : Int) (hdr : FileHeader) (w : World)
    (hr : Reach w0 a hdr w) (ha : 0 ≤ a) :
    hdr.numBytes ≤ hdr.numSectors * SectorSize ∧
      (0 < hdr.numSectors → (hdr.numSectors - 1) * SectorSize < hdr.numBytes) ∧
      hdr.numSectors = divRoundUp hdr.numBytes SectorSize := by
  obtain ⟨h0, h1⟩ := hr.ceil ha
  refine ⟨?_, ?_, h1⟩
  · rw [h1]
    unfold divRoundUp SectorSize
    omega
  · rw [h1]
    unfold divRoundUp SectorSize
    omega

/-- Witness of C10: the 5000-byte, 40-sector file built by `Allocate(3000)` and
`AppendSector(2000)`. -/
theorem length_invariant_after_growth_witness :
    hdrB.numBytes ≤ hdrB.numSectors * SectorSize ∧
      (0 < hdrB.numSectors → (hdrB.numSectors - 1) * SectorSize < hdrB.numBytes) ∧
      hdrB.numSectors = divRoundUp hdrB.numBytes SectorSize :=
  length_invariant_after_growth (emptyWorld 50) 3000 hdrB wB reach_B (by decide)

/-- Witness of C5: growing the 40-sector file by 3000 bytes needs 23 more sectors while 9
are free, so the call is rejected. -/
theorem AppendSector_failure_changes_nothing_witness :
    hdrB = hdrB ∧ wB = wB ∧
      ((3000 : Int) ≤ 0 ∨
        (hdrB.restLength < 3000 ∧
          (wB.freeMap.NumClear < hdrB.grown 3000 - hdrB.numSectors ∨
            overCapacity (hdrB.grown 3000) = true))) :=
  AppendSector_failure_changes_nothing hdrB wB 3000 junkZero hdrB wB (by rfl)

/-! ## Deallocate -/

theorem Deallocate_marked {w0 : World} {hdr : FileHeader} {w : World} (hinv : Inv w0 hdr w)
    (hm : Marked w0.freeMap (hdr.addressed w) w.freeMap) :
    hdr.Deallocate w = .ok (hdr, ⟨w0.freeMap, w.disk, w.findLog⟩) := by
  obtain ⟨hb, hc, h29, hs29, _, _⟩ := hinv
  unfold FileHeader.addressed at hm
  unfold FileHeader.Deallocate
  by_cases hl : hdr.dataSectors lastSlot = -1
  · have hc29 := h29.mp hl
    simp only [hl, if_true, sub_zero] at hm ⊢
    have hmin : min hdr.numSectors.toNat 29 = hdr.numSectors.toNat := by omega
    rw [hmin] at hm
    obtain ⟨bm1, hloop, hm1⟩ := clearLoopChecked_marked w0.freeMap _ _ _ _ []
      (fun _ => ⟨le_refl _, by push_cast; omega⟩) hm
    rw [hloop, hm1.eq_of_nil]
  · have hc29 : 29 ≤ hdr.numSectors := by
      by_contra hcon
      exact hl (h29.mpr (by omega))
    have hs := hs29 hc29
    simp only [hl, if_false, sub_zero] at hm ⊢
    have hmin : min hdr.numSectors.toNat 29 = 29 := by omega
    rw [hmin] at hm
    have e1 : ((NumDirect : Int) - 1).toNat = 29 := by decide
    have e2 : (if (0 : Int) < (NumDirect : Int) - 1 then (NumDirect : Int) - 1 else 0) = 29 := by
      decide
    rw [e1, e2]
    obtain ⟨bm1, hloop, hm1⟩ := clearLoopChecked_marked w0.freeMap 29 0 hdr.dataSectors _ _
      (fun _ => ⟨le_refl _, by decide⟩) hm
    obtain ⟨_, hclear, hm2⟩ := Marked.clear_head hm1
    have e3 : (29 : Int) - ((NumDirect : Int) - 1) = 0 := by decide
    rw [← List.append_nil (seg _ _ _)] at hm2
    obtain ⟨bm3, hloop3, hm3⟩ := clearLoop_marked w0.freeMap _ _ _ _ []
      (fun _ => ⟨le_refl _, by push_cast; omega⟩) hm2
    simp only [hloop, World.ReadSector, hs, if_true, hclear, e3, hloop3, hm3.eq_of_nil]

/-- C8. In a state reached from a world with free map `B0` by a successful `Allocate` and
successful `AppendSector` calls in which `Find` never signalled exhaustion, `Deallocate`
returns normally and leaves the free map equal to `B0`; the bits it clears are exactly those
of the addressed sectors (the first `min(numSectors, 29)` direct entries and, when
indirection is engaged, the indirect block's sector and its first `numSectors - 29`
entries), each of which was marked before the call, and no other bit changes. -/
theorem Deallocate_releases_exactly_addressed (w0 : World) (a : Int) (hdr : FileHeader)
    (w : World) (hr : Reach w0 a hdr w) (hclean : (-1 : Int) ∉ findsSince w0 w) :
    ∃ w1, hdr.Deallocate w = .ok (hdr, w1) ∧ w1.freeMap = w0.freeMap ∧
      w1.freeMap.length = w.freeMap.length ∧
      (∀ x ∈ hdr.addressed w, 0 ≤ x ∧ x < (w.freeMap.length : Int) ∧
        w.freeMap.getD x.toNat false = true ∧ w1.freeMap.getD x.toNat false = false) ∧
      (∀ j : Nat, (j : Int) ∉ hdr.addressed w →
        w1.freeMap.getD j false = w.freeMap.getD j false) := by
  have hinv := hr.inv
  have hm := hinv.marked hclean
  refine ⟨⟨w0.freeMap, w.disk, w.findLog⟩, Deallocate_marked hinv hm, rfl, ?_, ?_, ?_⟩
  · exact hm.2.1.symm
  · intro x hx
    obtain ⟨_, hlen, hel, hpt⟩ := hm
    obtain ⟨hx0, hx1, hxb⟩ := hel x hx
    refine ⟨hx0, by omega, ?_, hxb⟩
    apply (hpt x.toNat (by omega)).mpr
    right
    rw [Int.toNat_of_nonneg hx0]
    exact hx
  · intro j hj
    obtain ⟨_, hlen, hel, hpt⟩ := hm
    by_cases hjl : j < w0.freeMap.length
    · have := hpt j hjl
      simp only [hj, or_false] at this
      exact (Bool.eq_iff_iff.mpr this).symm
    · simp only [List.getD_eq_getElem?_getD]
      rw [List.getElem?_eq_none (by omega), List.getElem?_eq_none (by omega)]

/-- Witness of C8: the 40-sector file built by `Allocate(3000)` and `AppendSector(2000)` on
50 free sectors. -/
theorem Deallocate_releases_exactly_addressed_witness :
    ∃ w1, hdrB.Deallocate wB = .ok (hdrB, w1) ∧ w1.freeMap = (emptyWorld 50).freeMap ∧
      w1.freeMap.length = wB.freeMap.length ∧
      (∀ x ∈ hdrB.addressed wB, 0 ≤ x ∧ x < (wB.freeMap.length : Int) ∧
        wB.freeMap.getD x.toNat false = true ∧ w1.freeMap.getD x.toNat false = false) ∧
      (∀ j : Nat, (j : Int) ∉ hdrB.addressed wB →
        w1.freeMap.getD j false = wB.freeMap.getD j false) :=
  Deallocate_releases_exactly_addressed (emptyWorld 50) 3000 hdrB wB reach_B (by decide)

/-! ## Free sectors counted -/

theorem firstClear_count {bm : List Bool} {i : Nat} (h : firstClear bm = some i) :
    (bm.set i true).count false + 1 = bm.count false := by
  induction bm generalizing i with
  | nil => simp [firstClear] at h
  | cons b bs ih =>
    cases b with
    | false =>
      simp [firstClear] at h
      subst h
      simp
    | true =>
      simp only [firstClear, Option.map_eq_some'] at h
      obtain ⟨k, hk, rfl⟩ := h
      have := ih hk
      simpa using this

theorem Find_count (bm : BitMap) :
    bm.Find.2.NumClear = (if bm.NumClear = 0 then 0 else bm.NumClear - 1) ∧
      (bm.Find.1 = -1 ↔ bm.NumClear = 0) ∧ -1 ≤ bm.Find.1 := by
  unfold BitMap.Find BitMap.NumClear
  cases h : firstClear bm with
  | none =>
    have := firstClear_none h
    simp [this]
  | some i =>
    have := firstClear_count h
    simp only
    refine ⟨?_, ?_, by omega⟩
    · split <;> omega
    · constructor
      · intro hc
        omega
      · intro hc
        omega

theorem NumClear_nonneg (bm : BitMap) : 0 ≤ bm.NumClear := by
  unfold BitMap.NumClear
  exact Int.ofNat_nonneg _

theorem findLoop_count {n : Nat} (cnt : Nat) (idx : Int) (t : Fin n → Int) (w : World)
    (t1 : Fin n → Int) (w1 : World) (h : findLoop cnt idx t w = .ok (t1, w1)) :
    (cnt ≤ w.freeMap.NumClear →
      w1.freeMap.NumClear = w.freeMap.NumClear - cnt ∧ (-1 : Int) ∉ seg t1 cnt idx) := by
  induction cnt generalizing idx t w with
  | zero =>
    simp only [findLoop] at h
    injection h with h
    injection h with h1 h2
    subst h1 h2
    intro _
    simp [seg]
  | succ c ih =>
    simp only [findLoop] at h
    split at h
    · cases h
    · rename_i t2 hst
      obtain ⟨hr, hsame, hother⟩ := storeAt_ok hst
      obtain ⟨_, _, hfr, _, _⟩ := findLoop_spec w _ _ _ _ _ _ h
      have hp : peek t1 idx = w.Find.1 := by
        rw [hfr idx (Or.inl (by omega)), hsame]
      obtain ⟨hcnt, hm1, _⟩ := Find_count w.freeMap
      intro hle
      push_cast at hle
      have hpos : ¬ (w.freeMap.NumClear = 0) := by
        have : (0 : Int) ≤ (c : Int) := Int.ofNat_nonneg c
        omega
      simp only [hpos, if_false] at hcnt
      have hw : w.Find.2.freeMap.NumClear = w.freeMap.NumClear - 1 := hcnt
      obtain ⟨h1, h2⟩ := ih (idx + 1) t2 w.Find.2 h (by rw [hw]; omega)
      refine ⟨by rw [h1, hw]; push_cast; omega, ?_⟩
      simp only [seg, List.mem_cons, not_or]
      refine ⟨?_, h2⟩
      rw [hp]
      intro hc
      exact hpos (hm1.mp hc.symm)

/-- The number of free sectors `Allocate` really needs: one per data sector, and one more for
the indirect block when the source takes the indirect branch, `29 <= numSectors`. -/
theorem Allocate_succeeds (hdr0 : FileHeader) (w0 : World) (a : Int) (junk : Block)
    (hlow : 0 ≤ divRoundUp a SectorSize) (hcap : divRoundUp a SectorSize ≤ 61)
    (hfree : divRoundUp a SectorSize + (if 29 ≤ divRoundUp a SectorSize then 1 else 0)
      ≤ w0.freeMap.NumClear) :
    ∃ hdr w, hdr0.Allocate w0 a junk = .ok (true, hdr, w) ∧ hdr.numBytes = a ∧
      hdr.numSectors = divRoundUp a SectorSize ∧ (-1 : Int) ∉ findsSince w0 w := by
  have key : ∃ hdr w, hdr0.Allocate w0 a junk = .ok (true, hdr, w) ∧
      (-1 : Int) ∉ hdr.addressed w := by
    unfold FileHeader.Allocate
    simp only
    have h1 : ¬ (w0.freeMap.NumClear < divRoundUp a SectorSize) := by
      split at hfree <;> omega
    have h2 : ¬ (overCapacity (divRoundUp a SectorSize) = true) :=
      (overCapacity_ne_true _).mpr ⟨hlow, hcap⟩
    simp only [h1, h2, if_false]
    by_cases hlt : divRoundUp a SectorSize < 29
    · have hlt1 : divRoundUp a SectorSize < (NumDirect : Int) - 1 := by
        push_cast
        omega
      simp only [hlt1, if_true, sub_zero]
      obtain ⟨ds, w1, hloop⟩ := findLoop_total (divRoundUp a SectorSize).toNat 0
        hdr0.dataSectors w0 (fun _ => ⟨le_refl _, by push_cast; omega⟩)
      have hnn := NumClear_nonneg w0.freeMap
      have hnc := (findLoop_count _ _ _ _ _ _ hloop (by split at hfree <;> omega)).2
      rw [hloop]
      refine ⟨_, _, rfl, ?_⟩
      simp only [FileHeader.addressed, put_same, if_true, List.append_nil]
      have hmin : min (divRoundUp a SectorSize).toNat 29 = (divRoundUp a SectorSize).toNat := by
        omega
      rw [hmin, seg_put_lastSlot _ _ _ _ (by omega)]
      exact hnc
    · have hlt1 : ¬ (divRoundUp a SectorSize < (NumDirect : Int) - 1) := by
        push_cast
        omega
      have hge : 29 ≤ divRoundUp a SectorSize := by omega
      simp only [hge, if_true] at hfree
      simp only [hlt1, if_false, sub_zero]
      have e1 : ((NumDirect : Int) - 1).toNat = 29 := by decide
      rw [e1]
      obtain ⟨ds, w1, hloop⟩ := findLoop_total 29 0 hdr0.dataSectors w0
        (fun _ => ⟨le_refl _, by decide⟩)
      obtain ⟨hn1, hnc1⟩ := findLoop_count _ _ _ _ _ _ hloop (by push_cast; omega)
      obtain ⟨hcnt, hm1, hlow⟩ := Find_count w1.freeMap
      have hpos : ¬ (w1.freeMap.NumClear = 0) := by
        rw [hn1]
        push_cast
        omega
      simp only [hpos, if_false] at hcnt
      have hw : w1.Find.2.freeMap.NumClear = w1.freeMap.NumClear - 1 := hcnt
      have hs : w1.Find.1 ≠ -1 := fun hc => hpos (hm1.mp hc)
      have hs0 : 0 ≤ w1.Find.1 := by
        have : -1 ≤ w1.Find.1 := hlow
        omega
      obtain ⟨ds2, w3, hloop2⟩ := findLoop_total
        (divRoundUp a SectorSize - ((NumDirect : Int) - 1)).toNat 0 junk w1.Find.2
        (fun _ => ⟨le_refl _, by push_cast; omega⟩)
      obtain ⟨_, hnc2⟩ := findLoop_count _ _ _ _ _ _ hloop2 (by rw [hw, hn1]; push_cast; omega)
      simp only [hloop, hloop2, put_same, World.WriteSector, hs0, if_true]
      refine ⟨_, _, rfl, ?_⟩
      simp only [FileHeader.addressed, put_same, hs, if_false]
      have hmin : min (divRoundUp a SectorSize).toNat 29 = 29 := by omega
      have e2 : (divRoundUp a SectorSize - ((NumDirect : Int) - 1)).toNat
          = (divRoundUp a SectorSize - 29).toNat := by
        congr 1
      rw [hmin, seg_put_lastSlot _ _ _ _ (by omega)]
      rw [e2] at hnc2
      simp only [if_true, List.mem_append, List.mem_cons, not_or]
      exact ⟨hnc1, fun hc => hs hc.symm, hnc2⟩
  obtain ⟨hdr, w, hal, hclean⟩ := key
  obtain ⟨hb, hs, _, hinv⟩ := Allocate_ok hal
  exact ⟨hdr, w, hal, hb, hs, by rw [hinv.finds_eq]; exact hclean⟩

/-- Round trip when the free map really has room: `Allocate` followed by `Deallocate`
restores the free map bit for bit. -/
theorem Allocate_Deallocate_roundtrip (hdr0 : FileHeader) (w0 : World) (a : Int) (junk : Block)
    (hlow : 0 ≤ divRoundUp a SectorSize) (hcap : divRoundUp a SectorSize ≤ 61)
    (hfree : divRoundUp a SectorSize + (if 29 ≤ divRoundUp a SectorSize then 1 else 0)
      ≤ w0.freeMap.NumClear) :
    ∃ hdr w w1, hdr0.Allocate w0 a junk = .ok (true, hdr, w) ∧
      hdr.Deallocate w = .ok (hdr, w1) ∧ w1.freeMap = w0.freeMap := by
  obtain ⟨hdr, w, hal, _, _, hclean⟩ := Allocate_succeeds hdr0 w0 a junk hlow hcap hfree
  have hinv := (Allocate_ok hal).2.2.2
  exact ⟨hdr, w, _, hal, Deallocate_marked hinv (hinv.marked hclean), rfl⟩

/-! ## Behaviour at the edges of the free-space and indirection tests -/

/-- In every reachable state `dataSectors[29]` is the sentinel exactly when
`numSectors < 29`: the source tests `numSectors < lastIndex`. -/
theorem Reach.sentinel_iff {w0 : World} {a : Int} {hdr : FileHeader} {w : World}
    (h : Reach w0 a hdr w) : hdr.dataSectors lastSlot = -1 ↔ hdr.numSectors < 29 :=
  h.inv.2.2.1

/-- C1. On a free map with exactly 30 free sectors `Allocate(3840)` (30 data sectors, which
with the indirect block need 31) returns `TRUE`; the `Deallocate` that follows does not
return: it reaches `Clear(-1)` for the indirect entry that `Find` could not serve. -/
theorem Allocate_Deallocate_exact_fit_faults :
    returned (hdrZero.Allocate (emptyWorld 30) 3840 junkZero) = some true ∧
      hdrZero.Allocate (emptyWorld 30) 3840 junkZero = .ok (true, hdrFit, wFit) ∧
      hdrFit.Deallocate wFit = .error .assertion :=
  ⟨by decide, by rfl, by rfl⟩

/-- C2. The free-space checks compare `NumClear` with the number of data sectors only. On
exactly 31 free sectors `Allocate(3968)` (31 data sectors and the indirect block) returns
`TRUE` although its last `Find` signalled exhaustion, and stores the sentinel as the sector
of data block 30; on the 16 sectors left by `Allocate(3000)` out of 40, `AppendSector(2000)`
(16 data sectors and the indirect block) returns `TRUE` and stores the sentinel as the
sector of data block 39. -/
theorem free_check_ignores_indirect_block :
    returned (hdrZero.Allocate (emptyWorld 31) 3968 junkZero) = some true ∧
      wFull.findLog.getLast? = some (-1) ∧ hdrFull.blockSector wFull 30 = -1 ∧
      returned (hdrTight.AppendSector wTight 2000 junkZero) = some true ∧
      (outWorld (hdrTight.AppendSector wTight 2000 junkZero)).findLog.getLast? = some (-1) ∧
      (outHdr (hdrTight.AppendSector wTight 2000 junkZero)).blockSector
        (outWorld (hdrTight.AppendSector wTight 2000 junkZero)) 39 = -1 :=
  ⟨by decide, by decide, by decide, by decide, by decide, by decide⟩

/-- C3. With exactly 29 free sectors, `Allocate(3712)` (29 sectors, within the bound of
7808 bytes, and `NumClear >= 29`) does not return success: the source engages indirection
at 29 sectors, its thirtieth `Find` yields the sentinel, and `WriteSector(-1, ...)` is a
device error. -/
theorem Allocate_29_sectors_on_29_free_faults :
    (0 : Int) < 3712 ∧ (3712 : Int) ≤ (29 + 32) * 128 ∧
      divRoundUp 3712 SectorSize ≤ (emptyWorld 29).freeMap.NumClear ∧
      hdrZero.Allocate (emptyWorld 29) 3712 junkZero = .error .device :=
  ⟨by decide, by decide, by decide, by rfl⟩

/-- C9. A file of exactly 29 sectors gets an indirect block: after `Allocate(3712)` on 40
free sectors `numSectors` is 29 and `dataSectors[29]` is sector 29, not the sentinel; the
same state is reached when `AppendSector(712)` grows the 24-sector file to 29 sectors. -/
theorem indirection_engaged_at_29_sectors :
    returned (hdrZero.Allocate (emptyWorld 40) 3712 junkZero) = some true ∧
      hdrEdge.numSectors = 29 ∧ hdrEdge.dataSectors lastSlot = 29 ∧
      wEdge.freeMap.NumClear = 10 ∧
      returned (hdrA.AppendSector wA 712 junkZero) = some true ∧
      (outHdr (hdrA.AppendSector wA 712 junkZero)).numSectors = 29 ∧
      (outHdr (hdrA.AppendSector wA 712 junkZero)).dataSectors lastSlot = 29 :=
  ⟨by decide, by decide, by decide, by decide, by decide, by decide, by decide⟩

/-! ## Rejected allocation, persistence, unchecked releases -/

/-- C14, as stated, fails: `Allocate(7809)` called on the header of the 3000-byte file
returns `FALSE` and leaves `numBytes = 7809` and `numSectors = 62` in the header. -/
theorem Allocate_failure_overwrites_length :
    returned (hdrA.Allocate wA 7809 junkZero) = some false ∧
      hdrA.numBytes = 3000 ∧ hdrA.numSectors = 24 ∧
      (outHdr (hdrA.Allocate wA 7809 junkZero)).numBytes = 7809 ∧
      (outHdr (hdrA.Allocate wA 7809 junkZero)).numSectors = 62 :=
  ⟨by decide, by decide, by decide, by decide, by decide⟩

/-- C14, amended. When `Allocate` returns `FALSE` the table `dataSectors` and the world (free
map, disk, history of `Find` calls) are exactly what they were before the call; `numBytes`
and `numSectors` hold the requested size and its sector count, which the source stores
before it tests them. The cause is too few free sectors or the capacity test. -/
theorem Allocate_failure_keeps_table_and_map (hdr : FileHeader) (w : World) (fileSize : Int)
    (junk : Block) (hdr1 : FileHeader) (w1 : World)
    (h : hdr.Allocate w fileSize junk = .ok (false, hdr1, w1)) :
    hdr1.dataSectors = hdr.dataSectors ∧ w1 = w ∧
      hdr1.numBytes = fileSize ∧ hdr1.numSectors = divRoundUp fileSize SectorSize ∧
      (w.freeMap.NumClear < divRoundUp fileSize SectorSize ∨
        overCapacity (divRoundUp fileSize SectorSize) = true) := by
  unfold FileHeader.Allocate at h
  simp only at h
  split at h
  · rename_i hfree
    injection h with h
    simp only [Prod.mk.injEq, true_and] at h
    obtain ⟨rfl, rfl⟩ := h
    exact ⟨rfl, rfl, rfl, rfl, Or.inl hfree⟩
  split at h
  · rename_i hcap
    injection h with h
    simp only [Prod.mk.injEq, true_and] at h
    obtain ⟨rfl, rfl⟩ := h
    exact ⟨rfl, rfl, rfl, rfl, Or.inr hcap⟩
  split at h
  · split at h
    · cases h
    · injection h with h
      simp at h
  · split at h
    · cases h
    · split at h
      · cases h
      · split at h
        · cases h
        · injection h with h
          simp at h

/-- Witness of C14 amended: `Allocate(7809)` on the header of the 3000-byte file. -/
theorem Allocate_failure_keeps_table_and_map_witness :
    (outHdr (hdrA.Allocate wA 7809 junkZero)).dataSectors = hdrA.dataSectors ∧
      outWorld (hdrA.Allocate wA 7809 junkZero) = wA ∧
      (outHdr (hdrA.Allocate wA 7809 junkZero)).numBytes = 7809 ∧
      (outHdr (hdrA.Allocate wA 7809 junkZero)).numSectors = divRoundUp 7809 SectorSize ∧
      (wA.freeMap.NumClear < divRoundUp 7809 SectorSize ∨
        overCapacity (divRoundUp 7809 SectorSize) = true) :=
  Allocate_failure_keeps_table_and_map hdrA wA 7809 junkZero
    (outHdr (hdrA.Allocate wA 7809 junkZero)) (outWorld (hdrA.Allocate wA 7809 junkZero))
    (by rfl)

theorem ofImage_image (hdr : FileHeader) : FileHeader.ofImage hdr.image = hdr := by
  cases hdr with
  | mk b s ds =>
    unfold FileHeader.ofImage FileHeader.image
    simp

/-- C15. The image of a header is `2 + NumDirect = 32` integers, which at four bytes each is
one sector of 128 bytes. For every header `hdr` and sector `s`, `WriteBack(s)` returns, and
`FetchFrom(s)` into any header then yields `numBytes`, `numSectors` and the thirty entries
of `dataSectors` of `hdr`; `WriteBack` leaves every other sector of the disk, the free map
and the header itself as they were. -/
theorem WriteBack_FetchFrom_roundtrip (hdr : FileHeader) (w : World) (s : Int) (hs : 0 ≤ s)
    (other : FileHeader) :
    2 + NumDirect = NumDirect2 ∧ ((NumDirect2 : Nat) : Int) * 4 = SectorSize ∧
    ∃ w1, hdr.WriteBack w s = .ok (hdr, w1) ∧
      other.FetchFrom w1 s = .ok (hdr, w1) ∧
      (∀ k : Nat, k ≠ s.toNat → w1.disk k = w.disk k) ∧
      w1.freeMap = w.freeMap := by
  refine ⟨by decide, by decide, ?_⟩
  unfold FileHeader.WriteBack FileHeader.FetchFrom World.WriteSector World.ReadSector
  simp only [hs, if_true]
  refine ⟨_, rfl, ?_, ?_, rfl⟩
  · simp only [if_true, ofImage_image]
  · intro k hk
    simp only [hk, if_false]

/-- Witness of C15: the header of the 40-sector file written to sector 45 and fetched into an
empty header. -/
theorem WriteBack_FetchFrom_roundtrip_witness :
    2 + NumDirect = NumDirect2 ∧ ((NumDirect2 : Nat) : Int) * 4 = SectorSize ∧
    ∃ w1, hdrB.WriteBack wB 45 = .ok (hdrB, w1) ∧
      hdrZero.FetchFrom w1 45 = .ok (hdrB, w1) ∧
      (∀ k : Nat, k ≠ (45 : Int).toNat → w1.disk k = wB.disk k) ∧
      w1.freeMap = wB.freeMap :=
  WriteBack_FetchFrom_roundtrip hdrB wB 45 (by decide) hdrZero

/-- C17. In its indirect branch `Deallocate` tests only the 29 direct entries. With the bit
of an indirect entry (sector 35) or of the indirect block itself (sector 29) already clear,
`Deallocate` on the 40-sector file returns normally; with the bit of a direct entry
(sector 3) clear it stops on the failed `ASSERT`. -/
theorem Deallocate_skips_test_in_indirect_branch :
    (35 : Int) ∈ hdrB.addressed wLostEntry ∧ wLostEntry.freeMap.getD 35 true = false ∧
      ending (hdrB.Deallocate wLostEntry) = none ∧
      (29 : Int) ∈ hdrB.addressed wLostBlock ∧ wLostBlock.freeMap.getD 29 true = false ∧
      ending (hdrB.Deallocate wLostBlock) = none ∧
      (3 : Int) ∈ hdrB.addressed wLostDirect ∧ wLostDirect.freeMap.getD 3 true = false ∧
      ending (hdrB.Deallocate wLostDirect) = some Fault.assertion :=
  ⟨by decide, by decide, by decide, by decide, by decide, by decide, by decide, by decide,
    by decide⟩

/-! ## The free map as a function of the number of Find calls -/

theorem findN_length (k : Nat) (bm : BitMap) : (findN k bm).1.length = k := by
  induction k with
  | zero => rfl
  | succ k ih => simp [findN, ih]

theorem findN_count (k : Nat) (bm : BitMap) (h : (k : Int) ≤ bm.NumClear) :
    (findN k bm).2.NumClear = bm.NumClear - k ∧ (-1 : Int) ∉ (findN k bm).1 := by
  induction k with
  | zero => simp [findN]
  | succ k ih =>
    push_cast at h
    obtain ⟨ih1, ih2⟩ := ih (by omega)
    obtain ⟨hcnt, hm1, _⟩ := Find_count (findN k bm).2
    have hpos : ¬ ((findN k bm).2.NumClear = 0) := by
      rw [ih1]
      omega
    simp only [hpos, if_false] at hcnt
    refine ⟨?_, ?_⟩
    · simp only [findN]
      rw [hcnt, ih1]
      push_cast
      omega
    · simp only [findN, List.mem_append, List.mem_singleton, not_or]
      exact ⟨ih2, fun hc => hpos (hm1.mp hc.symm)⟩

theorem Steps.begin (w0 : World) : Steps w0 w0 :=
  ⟨0, by simp [findN], rfl⟩

theorem Steps.one_more {w0 w : World} (h : Steps w0 w) : Steps w0 w.Find.2 := by
  obtain ⟨k, hlog, hfm⟩ := h
  refine ⟨k + 1, ?_, ?_⟩
  · simp only [World.Find, findN, hlog, hfm, List.append_assoc]
  · simp only [World.Find, findN, hfm]

theorem Steps.after_write {w0 w w1 : World} {s : Int} {blk : Block} (h : Steps w0 w)
    (hw : w.WriteSector s blk = .ok w1) : Steps w0 w1 := by
  obtain ⟨_, hfm, hlog, _, _⟩ := WriteSector_ok hw
  obtain ⟨k, h1, h2⟩ := h
  exact ⟨k, by rw [hlog, h1], by rw [hfm, h2]⟩

theorem findLoop_steps {n : Nat} (w0 : World) (cnt : Nat) (idx : Int) (t : Fin n → Int)
    (w : World) (t1 : Fin n → Int) (w1 : World) (h : findLoop cnt idx t w = .ok (t1, w1))
    (hs : Steps w0 w) : Steps w0 w1 := by
  induction cnt generalizing idx t w with
  | zero =>
    simp only [findLoop] at h
    injection h with h
    injection h with h1 h2
    subst h2
    exact hs
  | succ c ih =>
    simp only [findLoop] at h
    split at h
    · cases h
    · exact ih _ _ _ h hs.one_more

theorem Allocate_cases {hdr0 hdr : FileHeader} {w0 w : World} {a : Int} {junk : Block}
    (h : hdr0.Allocate w0 a junk = .ok (true, hdr, w)) :
    divRoundUp a SectorSize ≤ w0.freeMap.NumClear ∧
    (0 ≤ divRoundUp a SectorSize ∧ divRoundUp a SectorSize ≤ 61) ∧
    ((divRoundUp a SectorSize < 29 ∧ ∃ ds,
        findLoop (divRoundUp a SectorSize).toNat 0 hdr0.dataSectors w0 = .ok (ds, w) ∧
        hdr = ⟨a, divRoundUp a SectorSize, put ds lastSlot (-1)⟩) ∨
     (29 ≤ divRoundUp a SectorSize ∧ ∃ ds wa blk wb,
        findLoop 29 0 hdr0.dataSectors w0 = .ok (ds, wa) ∧
        findLoop (divRoundUp a SectorSize - 29).toNat 0 junk wa.Find.2 = .ok (blk, wb) ∧
        wb.WriteSector wa.Find.1 blk = .ok w ∧
        hdr = ⟨a, divRoundUp a SectorSize, put ds lastSlot wa.Find.1⟩)) := by
  unfold FileHeader.Allocate at h
  simp only at h
  split at h
  · cases h
  rename_i hfree
  split at h
  · cases h
  rename_i hcap
  rw [overCapacity_ne_true] at hcap
  refine ⟨by omega, hcap, ?_⟩
  split at h
  · rename_i hlt
    push_cast at hlt
    split at h
    · cases h
    rename_i ds w1 hloop
    injection h with h
    simp only [Prod.mk.injEq, true_and] at h
    obtain ⟨rfl, rfl⟩ := h
    simp only [sub_zero] at hloop
    exact Or.inl ⟨by omega, ds, hloop, rfl⟩
  · rename_i hge
    push_cast at hge
    split at h
    · cases h
    rename_i ds wa hloop
    split at h
    · cases h
    rename_i blk wb hloop2
    split at h
    · cases h
    rename_i w4 hwr
    injection h with h
    simp only [Prod.mk.injEq, true_and] at h
    obtain ⟨rfl, rfl⟩ := h
    simp only [sub_zero] at hloop hloop2
    refine Or.inr ⟨by omega, ds, wa, blk, wb, hloop, hloop2, ?_, rfl⟩
    simpa [put_same] using hwr

theorem Allocate_steps {hdr0 hdr : FileHeader} {w0 w : World} {a : Int} {junk : Block}
    (h : hdr0.Allocate w0 a junk = .ok (true, hdr, w)) : Steps w0 w := by
  obtain ⟨_, _, hc⟩ := Allocate_cases h
  rcases hc with ⟨_, ds, hloop, _⟩ | ⟨_, ds, wa, blk, wb, hloop, hloop2, hwr, _⟩
  · exact findLoop_steps w0 _ _ _ _ _ _ hloop (Steps.begin w0)
  · exact (findLoop_steps w0 _ _ _ _ _ _ hloop2
      (findLoop_steps w0 _ _ _ _ _ _ hloop (Steps.begin w0)).one_more).after_write hwr

theorem AppendSector_steps {w0 : World} {hdr hdr1 : FileHeader} {w w1 : World} {n : Int}
    {junk : Block} (h : hdr.AppendSector w n junk = .ok (true, hdr1, w1)) (hs : Steps w0 w) :
    Steps w0 w1 := by
  obtain ⟨_, _, hcase⟩ := AppendSector_cases h
  rcases hcase with ⟨_, _, _, rfl⟩ | ⟨_, _, _, _, hbr⟩
  · exact hs
  · rcases hbr with ⟨_, _, hloop⟩ | ⟨_, _, ds, wa, blk, wb, hloop, _, hloop2, hwr⟩ |
      ⟨_, _, blk, wa, _, hloop, hwr⟩
    · exact findLoop_steps w0 _ _ _ _ _ _ hloop hs
    · exact (findLoop_steps w0 _ _ _ _ _ _ hloop2
        (findLoop_steps w0 _ _ _ _ _ _ hloop hs).one_more).after_write hwr
    · exact (findLoop_steps w0 _ _ _ _ _ _ hloop hs).after_write hwr

theorem Reach.steps {w0 : World} {a : Int} {hdr : FileHeader} {w : World}
    (h : Reach w0 a hdr w) : Steps w0 w := by
  induction h with
  | alloc hdr w ha =>
    obtain ⟨hdr0, junk, ha⟩ := ha
    exact Allocate_steps ha
  | append hdr w hdr1 w1 _ hap ih =>
    obtain ⟨n, junk, hap⟩ := hap
    exact AppendSector_steps hap ih

theorem Reach.nonneg {w0 : World} {a : Int} {hdr : FileHeader} {w : World}
    (h : Reach w0 a hdr w) : 0 ≤ hdr.numSectors ∧ 0 ≤ hdr.restLength ∧ -128 < hdr.numBytes := by
  have hr : 0 ≤ hdr.restLength := by
    have := h.inv.1
    unfold FileHeader.restLength SectorSize
    omega
  refine ⟨?_, hr, ?_⟩
  · induction h with
    | alloc hdr w ha =>
      obtain ⟨hdr0, junk, ha⟩ := ha
      rw [(Allocate_ok ha).2.1]
      exact (Allocate_cases ha).2.1.1
    | append hdr w hdr1 w1 hprev hap ih =>
      obtain ⟨n, junk, hap⟩ := hap
      have ih1 := ih (by
        have := hprev.inv.1
        unfold FileHeader.restLength SectorSize
        omega)
      obtain ⟨_, _, hcase⟩ := AppendSector_cases hap
      rcases hcase with ⟨_, hsec, _, _⟩ | ⟨hrest, hsec, _, _, _⟩
      · omega
      · have := (grown_spec hdr n hrest).1
        omega
  · induction h with
    | alloc hdr w ha =>
      obtain ⟨hdr0, junk, ha⟩ := ha
      rw [(Allocate_ok ha).1]
      have h0 := (Allocate_cases ha).2.1.1
      unfold divRoundUp SectorSize at h0
      omega
    | append hdr w hdr1 w1 hprev hap ih =>
      obtain ⟨n, junk, hap⟩ := hap
      have ih1 := ih (by
        have := hprev.inv.1
        unfold FileHeader.restLength SectorSize
        omega)
      obtain ⟨hn, hbytes, _⟩ := AppendSector_cases hap
      omega

/-! ## Growth that succeeds -/

theorem findsSince_append (w w1 : World) (l : List Int) (h : w1.findLog = w.findLog ++ l) :
    findsSince w w1 = l := by
  unfold findsSince
  rw [h]
  simp

theorem findsSince_mk (w : World) (fm : BitMap) (d : Nat → Block) (log l : List Int)
    (h : log = w.findLog ++ l) : findsSince w ⟨fm, d, log⟩ = l := by
  unfold findsSince
  simp only [h]
  simp

theorem AppendSector_succeeds {w0 : World} {hdr : FileHeader} {w : World}
    (hinv : Inv w0 hdr w) (h0 : 0 ≤ hdr.numSectors) (n : Int) (junk : Block) (hpos : 0 < n)
    (hrest : hdr.restLength < n) (hcap : hdr.grown n ≤ 61)
    (hfree : hdr.growthNeed n ≤ w.freeMap.NumClear) :
    ∃ hdr1 w1, hdr.AppendSector w n junk = .ok (true, hdr1, w1) ∧
      (-1 : Int) ∉ findsSince w w1 := by
  obtain ⟨hb, hc, h29, hs29, _, _⟩ := hinv
  obtain ⟨hgrow, _, _⟩ := grown_spec hdr n hrest
  have hg : hdr.grown n = hdr.numSectors +
      divRoundUp (n - (hdr.numSectors * SectorSize - hdr.numBytes)) SectorSize := rfl
  have hr : hdr.restLength = hdr.numSectors * SectorSize - hdr.numBytes := rfl
  unfold FileHeader.growthNeed at hfree
  unfold FileHeader.AppendSector
  have c1 : ¬ (n ≤ 0) := by omega
  have c2 : hdr.numSectors * SectorSize - hdr.numBytes < n := by rw [← hr]; exact hrest
  have c3 : ¬ (w.freeMap.NumClear <
      divRoundUp (n - (hdr.numSectors * SectorSize - hdr.numBytes)) SectorSize) := by
    split at hfree <;> omega
  have c4 : ¬ (overCapacity (hdr.numSectors +
      divRoundUp (n - (hdr.numSectors * SectorSize - hdr.numBytes)) SectorSize) = true) := by
    rw [overCapacity_ne_true]
    omega
  simp only [c1, c2, c3, c4, if_false, if_true]
  rw [← hg]
  by_cases hl : hdr.dataSectors lastSlot = -1
  · have hc29 := h29.mp hl
    simp only [hl, if_true]
    by_cases hlt : hdr.grown n < 29
    · have hlt1 : hdr.grown n < (NumDirect : Int) - 1 := by
        push_cast
        omega
      have hne : ¬ (29 ≤ hdr.grown n) := by omega
      simp only [hl, hne, and_false, if_false, add_zero] at hfree
      simp only [hlt1, if_true]
      obtain ⟨ds, w1, hloop⟩ := findLoop_total (hdr.grown n - hdr.numSectors).toNat
        hdr.numSectors hdr.dataSectors w (fun _ => ⟨h0, by push_cast; omega⟩)
      obtain ⟨_, hlog, _, _, _⟩ := findLoop_spec w _ _ _ _ _ _ hloop
      have hnc := (findLoop_count _ _ _ _ _ _ hloop (by omega)).2
      rw [hloop]
      refine ⟨_, _, rfl, ?_⟩
      rw [findsSince_append _ _ _ hlog]
      exact hnc
    · have hlt1 : ¬ (hdr.grown n < (NumDirect : Int) - 1) := by
        push_cast
        omega
      have hge : 29 ≤ hdr.grown n := by omega
      simp only [hl, hge, and_self, if_true] at hfree
      have hi1 : (if hdr.numSectors < (NumDirect : Int) - 1 then (NumDirect : Int) - 1
          else hdr.numSectors) = 29 := by
        push_cast
        split <;> omega
      have e1 : ((NumDirect : Int) - 1 - hdr.numSectors).toNat = (29 - hdr.numSectors).toNat := by
        congr 1
      have e2 : (29 : Int) - ((NumDirect : Int) - 1) = 0 := by decide
      simp only [hlt1, if_false, hi1, e1, e2]
      obtain ⟨ds, wa, hloop⟩ := findLoop_total (29 - hdr.numSectors).toNat
        hdr.numSectors hdr.dataSectors w (fun _ => ⟨h0, by push_cast; omega⟩)
      obtain ⟨_, hlog, _, _, _⟩ := findLoop_spec w _ _ _ _ _ _ hloop
      obtain ⟨hn1, hnc1⟩ := findLoop_count _ _ _ _ _ _ hloop (by omega)
      obtain ⟨hcnt, hm1, hlow⟩ := Find_count wa.freeMap
      have hposa : ¬ (wa.freeMap.NumClear = 0) := by
        rw [hn1]
        omega
      simp only [hposa, if_false] at hcnt
      have hw : wa.Find.2.freeMap.NumClear = wa.freeMap.NumClear - 1 := hcnt
      have hs : wa.Find.1 ≠ -1 := fun hc => hposa (hm1.mp hc)
      have hs0 : 0 ≤ wa.Find.1 := by
        have : -1 ≤ wa.Find.1 := hlow
        omega
      obtain ⟨blk, wb, hloop2⟩ := findLoop_total (hdr.grown n - 29).toNat 0 junk wa.Find.2
        (fun _ => ⟨le_refl _, by push_cast; omega⟩)
      obtain ⟨_, hlog2, _, _, _⟩ := findLoop_spec w _ _ _ _ _ _ hloop2
      obtain ⟨_, hnc2⟩ := findLoop_count _ _ _ _ _ _ hloop2 (by rw [hw, hn1]; omega)
      simp only [hloop, hloop2, put_same, World.WriteSector, hs0, if_true]
      refine ⟨_, _, rfl, ?_⟩
      have hfin : wb.findLog = w.findLog ++ (seg ds (29 - hdr.numSectors).toNat hdr.numSectors
          ++ wa.Find.1 :: seg blk (hdr.grown n - 29).toNat 0) := by
        rw [hlog2, World.Find_findLog, hlog]
        simp only [List.append_assoc, List.singleton_append]
      rw [findsSince_mk _ _ _ _ _ hfin]
      simp only [List.mem_append, List.mem_cons, not_or]
      exact ⟨hnc1, fun hc => hs hc.symm, hnc2⟩
  · have hc29 : 29 ≤ hdr.numSectors := by
      by_contra hcon
      exact hl (h29.mpr (by omega))
    have hs := hs29 hc29
    have hne : ¬ (hdr.dataSectors lastSlot = -1 ∧ 29 ≤ hdr.grown n) := fun hc => hl hc.1
    simp only [hne, if_false, add_zero] at hfree
    have e1 : hdr.numSectors - ((NumDirect : Int) - 1) = hdr.numSectors - 29 := by
      push_cast
      omega
    simp only [hl, if_false, World.ReadSector, hs, if_true, e1]
    obtain ⟨blk, wa, hloop⟩ := findLoop_total (hdr.grown n - hdr.numSectors).toNat
      (hdr.numSectors - 29) (w.disk (hdr.dataSectors lastSlot).toNat) w
      (fun _ => ⟨by omega, by push_cast; omega⟩)
    obtain ⟨_, hlog, _, _, _⟩ := findLoop_spec w _ _ _ _ _ _ hloop
    have hnc := (findLoop_count _ _ _ _ _ _ hloop (by omega)).2
    simp only [hloop, World.WriteSector, hs, if_true]
    refine ⟨_, _, rfl, ?_⟩
    rw [findsSince_mk _ _ _ _ _ hlog]
    exact hnc

theorem returned_true {r : Except Fault (Bool × FileHeader × World)}
    (h : returned r = some true) : ∃ hdr1 w1, r = .ok (true, hdr1, w1) := by
  unfold returned at h
  split at h
  · rename_i b hdr1 w1
    injection h with h
    subst h
    exact ⟨hdr1, w1, rfl⟩
  · cases h

theorem AppendSector_over_capacity (hdr : FileHeader) (w : World) (n : Int) (junk : Block)
    (hpos : 0 < n) (hrest : hdr.restLength < n) (hcap : 62 ≤ hdr.grown n) :
    hdr.AppendSector w n junk = .ok (false, hdr, w) := by
  have hg : hdr.grown n = hdr.numSectors +
      divRoundUp (n - (hdr.numSectors * SectorSize - hdr.numBytes)) SectorSize := rfl
  have hr : hdr.restLength = hdr.numSectors * SectorSize - hdr.numBytes := rfl
  unfold FileHeader.AppendSector
  have c1 : ¬ (n ≤ 0) := by omega
  have c2 : hdr.numSectors * SectorSize - hdr.numBytes < n := by rw [← hr]; exact hrest
  simp only [c1, c2, if_false, if_true]
  split
  · rfl
  · have c4 : overCapacity (hdr.numSectors +
        divRoundUp (n - (hdr.numSectors * SectorSize - hdr.numBytes)) SectorSize) = true := by
      rw [overCapacity_eq_true]
      omega
    simp only [c4, if_true]

/-- C16. In every state reached by a successful `Allocate` and successful `AppendSector`
calls, a request that exceeds the slack and finds enough free sectors (one per added data
sector, and one for the indirect block if this call engages it) makes `AppendSector` return
`TRUE` exactly when `numSectors + appendSectors <= 61`: growth to 61 sectors is accepted,
growth to 62 returns `FALSE` and changes nothing. `Allocate` draws the same line: with
enough free sectors it returns `TRUE` exactly when its sector count is at most 61 (and not
negative). -/
theorem AppendSector_capacity_boundary (w0 : World) (a : Int) (hdr : FileHeader) (w : World)
    (hr : Reach w0 a hdr w) (n : Int) (junk : Block)
    (hrest : hdr.restLength < n) (hfree : hdr.growthNeed n ≤ w.freeMap.NumClear) :
    (returned (hdr.AppendSector w n junk) = some true ↔ hdr.grown n ≤ 61) ∧
    (hdr.grown n ≤ 61 → ∃ hdr1 w1, hdr.AppendSector w n junk = .ok (true, hdr1, w1) ∧
      hdr1.numSectors = hdr.grown n ∧ hdr1.numBytes = hdr.numBytes + n) ∧
    (62 ≤ hdr.grown n → hdr.AppendSector w n junk = .ok (false, hdr, w)) ∧
    (∀ (hdr0 : FileHeader) (v : World) (b : Int) (junk1 : Block),
      divRoundUp b SectorSize + (if 29 ≤ divRoundUp b SectorSize then 1 else 0)
        ≤ v.freeMap.NumClear →
      (returned (hdr0.Allocate v b junk1) = some true ↔
        (0 ≤ divRoundUp b SectorSize ∧ divRoundUp b SectorSize ≤ 61))) := by
  obtain ⟨h0, hr0, _⟩ := hr.nonneg
  have hpos : 0 < n := by omega
  have hyes : hdr.grown n ≤ 61 → ∃ hdr1 w1, hdr.AppendSector w n junk = .ok (true, hdr1, w1) ∧
      hdr1.numSectors = hdr.grown n ∧ hdr1.numBytes = hdr.numBytes + n := by
    intro hcap
    obtain ⟨hdr1, w1, happ, _⟩ := AppendSector_succeeds hr.inv h0 n junk hpos hrest hcap hfree
    obtain ⟨_, hbytes, hcase⟩ := AppendSector_cases happ
    rcases hcase with ⟨hfit, _, _, _⟩ | ⟨_, hsec, _, _, _⟩
    · omega
    · exact ⟨hdr1, w1, happ, hsec, hbytes⟩
  refine ⟨⟨?_, ?_⟩, hyes, AppendSector_over_capacity hdr w n junk hpos hrest, ?_⟩
  · intro hret
    obtain ⟨hdr1, w1, happ⟩ := returned_true hret
    obtain ⟨_, _, hcase⟩ := AppendSector_cases happ
    rcases hcase with ⟨hfit, _, _, _⟩ | ⟨_, _, _, hcap, _⟩
    · omega
    · exact hcap
  · intro hcap
    obtain ⟨hdr1, w1, happ, _⟩ := hyes hcap
    rw [happ]
    rfl
  · intro hdr0 v b junk1 hfr
    constructor
    · intro hret
      obtain ⟨hdr1, w1, hal⟩ := returned_true hret
      exact (Allocate_cases hal).2.1
    · intro hcap
      obtain ⟨hdr1, w1, hal, _⟩ := Allocate_succeeds hdr0 v b junk1 hcap.1 hcap.2 hfr
      rw [hal]
      rfl

theorem reach_Big : Reach (emptyWorld 70) 7000 hdrBig wBig :=
  Reach.alloc hdrBig wBig ⟨hdrZero, junkZero, by rfl⟩

/-- Witness of C16: the 7000-byte file of 55 sectors has 40 bytes of slack; a request of
808 bytes needs 6 more sectors, 61 in all, and 14 are free. -/
theorem AppendSector_capacity_boundary_witness :
    (returned (hdrBig.AppendSector wBig 808 junkZero) = some true ↔ hdrBig.grown 808 ≤ 61) ∧
    (hdrBig.grown 808 ≤ 61 → ∃ hdr1 w1,
      hdrBig.AppendSector wBig 808 junkZero = .ok (true, hdr1, w1) ∧
      hdr1.numSectors = hdrBig.grown 808 ∧ hdr1.numBytes = hdrBig.numBytes + 808) ∧
    (62 ≤ hdrBig.grown 808 → hdrBig.AppendSector wBig 808 junkZero = .ok (false, hdrBig, wBig)) ∧
    (∀ (hdr0 : FileHeader) (v : World) (b : Int) (junk1 : Block),
      divRoundUp b SectorSize + (if 29 ≤ divRoundUp b SectorSize then 1 else 0)
        ≤ v.freeMap.NumClear →
      (returned (hdr0.Allocate v b junk1) = some true ↔
        (0 ≤ divRoundUp b SectorSize ∧ divRoundUp b SectorSize ≤ 61))) :=
  AppendSector_capacity_boundary (emptyWorld 70) 7000 hdrBig wBig reach_Big 808
    junkZero (by decide) (by decide)

theorem mem_seg {n : Nat} (t : Fin n → Int) (cnt : Nat) (idx : Int) (k : Int)
    (h0 : idx ≤ k) (h1 : k < idx + cnt) : peek t k ∈ seg t cnt idx := by
  have h := seg_getElem? t cnt idx (k - idx).toNat (by omega)
  have e : idx + (((k - idx).toNat : Nat) : Int) = k := by omega
  rw [e] at h
  exact List.getElem?_mem h

theorem Inv.addressed_length {w0 : World} {hdr : FileHeader} {w : World}
    (h : Inv w0 hdr w) :
    (hdr.addressed w).length =
      if hdr.numSectors < 29 then hdr.numSectors.toNat else hdr.numSectors.toNat + 1 := by
  obtain ⟨_, hc, h29, _, _, _⟩ := h
  unfold FileHeader.addressed
  by_cases hl : hdr.dataSectors lastSlot = -1
  · have := h29.mp hl
    simp only [hl, if_true, this, List.append_nil, seg_length]
    omega
  · have hge : ¬ (hdr.numSectors < 29) := fun hc => hl (h29.mpr hc)
    simp only [hl, if_false, hge, List.length_append, List.length_cons, seg_length]
    omega

theorem Inv.findN_eq {w0 : World} {hdr : FileHeader} {w : World} (h : Inv w0 hdr w)
    (hs : Steps w0 w) :
    (findN (hdr.addressed w).length w0.freeMap).1 = hdr.addressed w ∧
      (findN (hdr.addressed w).length w0.freeMap).2 = w.freeMap := by
  obtain ⟨k, hlog, hfm⟩ := hs
  have hl := h.2.2.2.2.1
  rw [hlog] at hl
  have he := List.append_cancel_left hl
  have hk : k = (hdr.addressed w).length := by
    rw [← he, findN_length]
  subst hk
  exact ⟨he, hfm.symm⟩

theorem Inv.blockSector_log {w0 : World} {hdr : FileHeader} {w : World} (h : Inv w0 hdr w)
    (k : Int) (h0 : 0 ≤ k) (h1 : k < hdr.numSectors) :
    (hdr.addressed w)[(if k < 29 then k else k + 1).toNat]? = some (hdr.blockSector w k) := by
  obtain ⟨_, hc, h29, _, _, _⟩ := h
  unfold FileHeader.addressed FileHeader.blockSector
  by_cases hk : k < 29
  · simp only [hk, if_true]
    rw [List.getElem?_append_left (by rw [seg_length]; omega),
      seg_getElem? _ _ _ _ (by omega)]
    congr 2
    omega
  · have hne : ¬ (hdr.dataSectors lastSlot = -1) := by
      intro hcon
      have := h29.mp hcon
      omega
    simp only [hk, if_false, hne]
    rw [List.getElem?_append_right (by rw [seg_length]; omega), seg_length]
    have e : (k + 1).toNat - min hdr.numSectors.toNat 29 = (k - 29).toNat + 1 := by omega
    rw [e, List.getElem?_cons_succ, seg_getElem? _ _ _ _ (by omega)]
    congr 2
    omega

theorem Inv.lastSlot_log {w0 : World} {hdr : FileHeader} {w : World} (h : Inv w0 hdr w)
    (h1 : 29 ≤ hdr.numSectors) : (hdr.addressed w)[29]? = some (hdr.dataSectors lastSlot) := by
  obtain ⟨_, hc, h29, _, _, _⟩ := h
  have hne : ¬ (hdr.dataSectors lastSlot = -1) := by
    intro hcon
    have := h29.mp hcon
    omega
  unfold FileHeader.addressed
  simp only [hne, if_false]
  rw [List.getElem?_append_right (by rw [seg_length]; omega), seg_length]
  have e : 29 - min hdr.numSectors.toNat 29 = 0 := by omega
  rw [e]
  simp

/-! ## Growth across the boundary and the spec's scenario -/

/-- C12. Let `dataSectors[29]` be the sentinel and `numSectors = s <= 29`, and let
`AppendSector` return `TRUE` with a new `numSectors = n > 29`, the free map holding at least
`n - s + 1` free sectors. Then `s >= 0`, the entries below `s` are untouched, and the
values `Find` returned during the call are, in order: the new entries `dataSectors[s..28]`,
then `dataSectors[29]`, then entries `0..n-30` of the block read back from sector
`dataSectors[29]`. None of them is the sentinel, and they are fresh: distinct sectors of
the map, clear before the call and marked after it. -/
theorem AppendSector_crossing_layout (hdr : FileHeader) (w : World) (fileSize : Int)
    (junk : Block) (hdr1 : FileHeader) (w1 : World)
    (hl : hdr.dataSectors lastSlot = -1) (hs : hdr.numSectors ≤ 29)
    (happ : hdr.AppendSector w fileSize junk = .ok (true, hdr1, w1))
    (hn : 29 < hdr1.numSectors)
    (hfree : hdr1.numSectors - hdr.numSectors + 1 ≤ w.freeMap.NumClear) :
    0 ≤ hdr.numSectors ∧
    (∀ k : Int, 0 ≤ k → k < hdr.numSectors → peek hdr1.dataSectors k = peek hdr.dataSectors k) ∧
    hdr1.dataSectors lastSlot ≠ -1 ∧
    ∃ blk, w1.ReadSector (hdr1.dataSectors lastSlot) = .ok blk ∧
      findsSince w w1 =
        seg hdr1.dataSectors (29 - hdr.numSectors).toNat hdr.numSectors ++
          hdr1.dataSectors lastSlot :: seg blk (hdr1.numSectors - 29).toNat 0 ∧
      (-1 : Int) ∉ findsSince w w1 ∧
      Marked w.freeMap (findsSince w w1) w1.freeMap := by
  obtain ⟨_, _, hcase⟩ := AppendSector_cases happ
  rcases hcase with ⟨_, hsec, _, _⟩ | ⟨_, hsec, _, hcap, hbr⟩
  · omega
  rcases hbr with ⟨_, hlt, _⟩ | ⟨_, hge, ds, wa, blk, wb, hloop, hds, hloop2, hwr⟩ |
    ⟨hne, _⟩
  · omega
  · have hmax : max hdr.numSectors 29 = 29 := by omega
    rw [hmax] at hloop2
    simp only [sub_self] at hloop2
    obtain ⟨_, hlog, hfr, hbd, htr1⟩ := findLoop_spec w _ _ _ _ _ _ hloop
    obtain ⟨_, hlog2, _, _, htr2⟩ := findLoop_spec w _ _ _ _ _ _ hloop2
    obtain ⟨hs0, hfm4, hlog4, hd4, _⟩ := WriteSector_ok hwr
    have hnn := NumClear_nonneg w.freeMap
    obtain ⟨hn1, hnc1⟩ := findLoop_count _ _ _ _ _ _ hloop (by omega)
    obtain ⟨hcnt, hm1, _⟩ := Find_count wa.freeMap
    have hposa : ¬ (wa.freeMap.NumClear = 0) := by
      rw [hn1]
      omega
    simp only [hposa, if_false] at hcnt
    have hw : wa.Find.2.freeMap.NumClear = wa.freeMap.NumClear - 1 := hcnt
    have hsne : wa.Find.1 ≠ -1 := fun hc => hposa (hm1.mp hc)
    obtain ⟨_, hnc2⟩ := findLoop_count _ _ _ _ _ _ hloop2 (by rw [hw, hn1]; omega)
    have hl29 : hdr1.dataSectors lastSlot = wa.Find.1 := by rw [hds, put_same]
    have hseg : seg hdr1.dataSectors (29 - hdr.numSectors).toNat hdr.numSectors =
        seg ds (29 - hdr.numSectors).toNat hdr.numSectors := by
      rw [hds, seg_put_lastSlot _ _ _ _ (by omega)]
    have hfin : w1.findLog = w.findLog ++
        (seg hdr1.dataSectors (29 - hdr.numSectors).toNat hdr.numSectors ++
          hdr1.dataSectors lastSlot :: seg blk (hdr1.numSectors - 29).toNat 0) := by
      rw [hlog4, hlog2, World.Find_findLog, hlog, hseg, hl29, hsec]
      simp only [List.append_assoc, List.singleton_append]
    have hfs := findsSince_append w w1 _ hfin
    have hclean : (-1 : Int) ∉ findsSince w w1 := by
      rw [hfs, hseg, hl29, hsec]
      simp only [List.mem_append, List.mem_cons, not_or]
      exact ⟨hnc1, fun hc => hsne hc.symm, hnc2⟩
    have htr : Tracks w w1 := Tracks.write (htr2 (Tracks.step (htr1 (Tracks.start w)))) hwr
    obtain ⟨l, hl1, hl2⟩ := htr
    have hle : l = findsSince w w1 := (findsSince_append w w1 l hl1).symm
    subst hle
    refine ⟨?_, ?_, by rw [hl29]; exact hsne, blk, ?_, hfs, hclean, hl2 hclean⟩
    · by_cases h29 : hdr.numSectors = 29
      · omega
      · exact (hbd (by omega)).1
    · intro k hk0 hk1
      rw [hds, peek_put_other _ _ _ _ (by rw [lastSlot_val]; omega)]
      exact hfr k (Or.inl hk1)
    · rw [hl29]
      simp only [World.ReadSector, hs0, if_true, hd4]
  · exact absurd hl hne

/-- Witness of C12: `AppendSector(2000)` takes the 24-sector file built on 50 free sectors
to 40 sectors; 17 sectors are needed and 26 are free. -/
theorem AppendSector_crossing_layout_witness :
    0 ≤ hdrA.numSectors ∧
    (∀ k : Int, 0 ≤ k → k < hdrA.numSectors →
      peek hdrB.dataSectors k = peek hdrA.dataSectors k) ∧
    hdrB.dataSectors lastSlot ≠ -1 ∧
    ∃ blk, wB.ReadSector (hdrB.dataSectors lastSlot) = .ok blk ∧
      findsSince wA wB =
        seg hdrB.dataSectors (29 - hdrA.numSectors).toNat hdrA.numSectors ++
          hdrB.dataSectors lastSlot :: seg blk (hdrB.numSectors - 29).toNat 0 ∧
      (-1 : Int) ∉ findsSince wA wB ∧
      Marked wA.freeMap (findsSince wA wB) wB.freeMap :=
  AppendSector_crossing_layout hdrA wA 2000 junkZero hdrB wB (by decide) (by decide) (by rfl)
    (by decide) (by decide)

theorem Marked.of_mem {b0 bm : BitMap} {l : List Int} (h : Marked b0 l bm) {x : Int}
    (hx : x ∈ l) :
    0 ≤ x ∧ x < (bm.length : Int) ∧ bm.getD x.toNat false = true ∧
      b0.getD x.toNat false = false := by
  obtain ⟨_, hlen, hel, hpt⟩ := h
  obtain ⟨hx0, hx1, hxb⟩ := hel x hx
  refine ⟨hx0, by omega, ?_, hxb⟩
  apply (hpt x.toNat (by omega)).mpr
  right
  rw [Int.toNat_of_nonneg hx0]
  exact hx

theorem Reach.numClear {w0 : World} {a : Int} {hdr : FileHeader} {w : World}
    (h : Reach w0 a hdr w) (hfree : ((hdr.addressed w).length : Int) ≤ w0.freeMap.NumClear) :
    w.freeMap.NumClear = w0.freeMap.NumClear - (hdr.addressed w).length ∧
      (-1 : Int) ∉ findsSince w0 w := by
  obtain ⟨h1, h2⟩ := h.inv.findN_eq h.steps
  obtain ⟨h3, h4⟩ := findN_count _ _ hfree
  rw [h2] at h3
  rw [h1] at h4
  rw [h.inv.finds_eq]
  exact ⟨h3, h4⟩

/-- C13. On any free map with at least 41 free sectors, whatever the header and the stack
held before: `Allocate(3000)` returns `TRUE` with `numSectors = 24` and the sentinel in
`dataSectors[29]`; `AppendSector(2000)` then returns `TRUE` with `numBytes = 5000` and
`numSectors = 40`, the entries `dataSectors[0..28]` and the first 11 entries of the indirect
block are marked sectors of the map, `dataSectors[29]` is not the sentinel, and the file
addresses 41 distinct sectors; `Deallocate` then returns and raises `NumClear` by exactly
41, back to the free map from before `Allocate`. -/
theorem scenario_allocate_3000_append_2000 (hdr0 : FileHeader) (w0 : World)
    (junk1 junk2 : Block) (hfree : 41 ≤ w0.freeMap.NumClear) :
    ∃ h1 w1 h2 w2 w3,
      hdr0.Allocate w0 3000 junk1 = .ok (true, h1, w1) ∧
      h1.numSectors = 24 ∧ h1.dataSectors lastSlot = -1 ∧
      h1.AppendSector w1 2000 junk2 = .ok (true, h2, w2) ∧
      h2.numBytes = 5000 ∧ h2.numSectors = 40 ∧
      (∀ k : Int, 0 ≤ k → k < 29 → 0 ≤ peek h2.dataSectors k ∧
        w2.freeMap.getD (peek h2.dataSectors k).toNat false = true) ∧
      h2.dataSectors lastSlot ≠ -1 ∧
      (∀ j : Int, 0 ≤ j → j < 11 → 0 ≤ peek (w2.disk (h2.dataSectors lastSlot).toNat) j ∧
        w2.freeMap.getD (peek (w2.disk (h2.dataSectors lastSlot).toNat) j).toNat false = true) ∧
      (h2.addressed w2).length = 41 ∧ (h2.addressed w2).Nodup ∧
      w2.freeMap.NumClear = w0.freeMap.NumClear - 41 ∧
      h2.Deallocate w2 = .ok (h2, w3) ∧
      w3.freeMap.NumClear = w2.freeMap.NumClear + 41 ∧ w3.freeMap = w0.freeMap := by
  have e24 : divRoundUp 3000 SectorSize = 24 := by decide
  obtain ⟨h1, w1, hal, hb1, hs1, _⟩ := Allocate_succeeds hdr0 w0 3000 junk1
    (by rw [e24]; decide) (by rw [e24]; decide) (by rw [e24]; simp only [show ¬ ((29 : Int) ≤ 24) by decide, if_false]; omega)
  rw [e24] at hs1
  have r1 : Reach w0 3000 h1 w1 := Reach.alloc h1 w1 ⟨hdr0, junk1, hal⟩
  have inv1 := r1.inv
  have hl1 : h1.dataSectors lastSlot = -1 := inv1.2.2.1.mpr (by omega)
  have hlen1 : (h1.addressed w1).length = 24 := by
    rw [inv1.addressed_length, hs1]
    decide
  obtain ⟨hnc1, _⟩ := r1.numClear (by rw [hlen1]; push_cast; omega)
  rw [hlen1] at hnc1
  push_cast at hnc1
  have hrl : h1.restLength = 72 := by
    unfold FileHeader.restLength
    rw [hs1, hb1]
    decide
  have hg : h1.grown 2000 = 40 := by
    unfold FileHeader.grown
    rw [hrl, hs1]
    decide
  have hneed : h1.growthNeed 2000 = 17 := by
    unfold FileHeader.growthNeed
    rw [hg, hs1, hl1]
    decide
  obtain ⟨h2, w2, happ, _⟩ := AppendSector_succeeds inv1 (by omega) 2000 junk2 (by decide)
    (by rw [hrl]; decide) (by rw [hg]; decide) (by rw [hneed]; omega)
  obtain ⟨_, hb2, hcase⟩ := AppendSector_cases happ
  have hs2 : h2.numSectors = 40 := by
    rcases hcase with ⟨hfit, _, _, _⟩ | ⟨_, hsec, _, _, _⟩
    · omega
    · rw [hsec, hg]
  rw [hb1] at hb2
  have r2 : Reach w0 3000 h2 w2 := Reach.append h1 w1 h2 w2 r1 ⟨2000, junk2, happ⟩
  have inv2 := r2.inv
  have hl2 : h2.dataSectors lastSlot ≠ -1 := by
    intro hc
    have := inv2.2.2.1.mp hc
    omega
  have hlen2 : (h2.addressed w2).length = 41 := by
    rw [inv2.addressed_length, hs2]
    decide
  obtain ⟨hnc2, hclean⟩ := r2.numClear (by rw [hlen2]; push_cast; omega)
  rw [hlen2] at hnc2
  push_cast at hnc2
  have hm := inv2.marked hclean
  have haddr : h2.addressed w2 = seg h2.dataSectors 29 0 ++
      h2.dataSectors lastSlot ::
        seg (w2.disk (h2.dataSectors lastSlot).toNat) 11 0 := by
    unfold FileHeader.addressed
    rw [hs2]
    simp only [hl2, if_false]
    rfl
  refine ⟨h1, w1, h2, w2, ⟨w0.freeMap, w2.disk, w2.findLog⟩, hal, hs1, hl1, happ,
    by rw [hb2]; decide, hs2, ?_, hl2, ?_, hlen2, hm.1, hnc2, Deallocate_marked inv2 hm, ?_, rfl⟩
  · intro k hk0 hk1
    have hmem : peek h2.dataSectors k ∈ h2.addressed w2 := by
      rw [haddr]
      exact List.mem_append_left _ (mem_seg _ _ _ _ hk0 (by push_cast; omega))
    obtain ⟨hx0, _, hset, _⟩ := hm.of_mem hmem
    exact ⟨hx0, hset⟩
  · intro j hj0 hj1
    have hmem : peek (w2.disk (h2.dataSectors lastSlot).toNat) j ∈ h2.addressed w2 := by
      rw [haddr]
      exact List.mem_append_right _ (List.mem_cons_of_mem _
        (mem_seg _ _ _ _ hj0 (by push_cast; omega)))
    obtain ⟨hx0, _, hset, _⟩ := hm.of_mem hmem
    exact ⟨hx0, hset⟩
  · show w0.freeMap.NumClear = w2.freeMap.NumClear + 41
    omega

/-- Witness of C13: the scenario on 41 free sectors exactly, started from an empty header. -/
theorem scenario_allocate_3000_append_2000_witness :
    ∃ h1 w1 h2 w2 w3,
      hdrZero.Allocate (emptyWorld 41) 3000 junkZero = .ok (true, h1, w1) ∧
      h1.numSectors = 24 ∧ h1.dataSectors lastSlot = -1 ∧
      h1.AppendSector w1 2000 junkZero = .ok (true, h2, w2) ∧
      h2.numBytes = 5000 ∧ h2.numSectors = 40 ∧
      (∀ k : Int, 0 ≤ k → k < 29 → 0 ≤ peek h2.dataSectors k ∧
        w2.freeMap.getD (peek h2.dataSectors k).toNat false = true) ∧
      h2.dataSectors lastSlot ≠ -1 ∧
      (∀ j : Int, 0 ≤ j → j < 11 → 0 ≤ peek (w2.disk (h2.dataSectors lastSlot).toNat) j ∧
        w2.freeMap.getD (peek (w2.disk (h2.dataSectors lastSlot).toNat) j).toNat false = true) ∧
      (h2.addressed w2).length = 41 ∧ (h2.addressed w2).Nodup ∧
      w2.freeMap.NumClear = (emptyWorld 41).freeMap.NumClear - 41 ∧
      h2.Deallocate w2 = .ok (h2, w3) ∧
      w3.freeMap.NumClear = w2.freeMap.NumClear + 41 ∧ w3.freeMap = (emptyWorld 41).freeMap :=
  scenario_allocate_3000_append_2000 hdrZero (emptyWorld 41) junkZero junkZero (by decide)

/-! ## Index safety and composition -/

theorem findLoop_not_error {n : Nat} (cnt : Nat) (idx : Int) (t : Fin n → Int) (w : World)
    (hb : 0 < cnt → 0 ≤ idx ∧ idx + cnt ≤ (n : Int)) (e : Fault) :
    findLoop cnt idx t w ≠ .error e := by
  obtain ⟨t1, w1, h⟩ := findLoop_total cnt idx t w hb
  rw [h]
  intro hc
  cases hc

theorem WriteSector_not_bounds (w : World) (s : Int) (blk : Block) :
    w.WriteSector s blk ≠ .error .bounds := by
  unfold World.WriteSector
  split
  · intro hc
    cases hc
  · intro hc
    cases hc

theorem ReadSector_not_bounds (w : World) (s : Int) : w.ReadSector s ≠ .error .bounds := by
  unfold World.ReadSector
  split
  · intro hc
    cases hc
  · intro hc
    cases hc

theorem Clear_not_bounds (bm : BitMap) (s : Int) : bm.Clear s ≠ .error .bounds := by
  unfold BitMap.Clear
  split
  · intro hc
    cases hc
  · intro hc
    cases hc

theorem Test_not_bounds (bm : BitMap) (s : Int) : bm.Test s ≠ .error .bounds := by
  unfold BitMap.Test
  split
  · intro hc
    cases hc
  · intro hc
    cases hc

theorem clearLoop_not_bounds {n : Nat} (cnt : Nat) (idx : Int) (t : Fin n → Int)
    (bm : BitMap) (hb : 0 < cnt → 0 ≤ idx ∧ idx + cnt ≤ (n : Int)) :
    clearLoop cnt idx t bm ≠ .error .bounds := by
  induction cnt generalizing idx bm with
  | zero =>
    intro hc
    cases hc
  | succ c ih =>
    have hr := hb (by omega)
    push_cast at hr
    simp only [clearLoop, loadAt_eq t idx ⟨hr.1, by omega⟩]
    cases hcl : bm.Clear (peek t idx) with
    | error e =>
      intro hc
      injection hc with hc
      subst hc
      exact Clear_not_bounds _ _ hcl
    | ok bm1 => exact ih (idx + 1) bm1 (fun _ => ⟨by omega, by omega⟩)

theorem clearLoopChecked_not_bounds {n : Nat} (cnt : Nat) (idx : Int) (t : Fin n → Int)
    (bm : BitMap) (hb : 0 < cnt → 0 ≤ idx ∧ idx + cnt ≤ (n : Int)) :
    clearLoopChecked cnt idx t bm ≠ .error .bounds := by
  induction cnt generalizing idx bm with
  | zero =>
    intro hc
    cases hc
  | succ c ih =>
    have hr := hb (by omega)
    push_cast at hr
    simp only [clearLoopChecked, loadAt_eq t idx ⟨hr.1, by omega⟩]
    cases hts : bm.Test (peek t idx) with
    | error e =>
      intro hc
      injection hc with hc
      subst hc
      exact Test_not_bounds _ _ hts
    | ok b =>
      cases b with
      | false =>
        intro hc
        cases hc
      | true =>
        cases hcl : bm.Clear (peek t idx) with
        | error e =>
          intro hc
          injection hc with hc
          subst hc
          exact Clear_not_bounds _ _ hcl
        | ok bm1 => exact ih (idx + 1) bm1 (fun _ => ⟨by omega, by omega⟩)

theorem Allocate_not_bounds (hdr0 : FileHeader) (w : World) (a : Int) (junk : Block) :
    hdr0.Allocate w a junk ≠ .error .bounds := by
  intro h
  unfold FileHeader.Allocate at h
  simp only at h
  split at h
  · cases h
  split at h
  · cases h
  rename_i hcap
  rw [overCapacity_ne_true] at hcap
  split at h
  · rename_i hlt
    push_cast at hlt
    split at h
    · rename_i e hloop
      exact findLoop_not_error _ _ _ _ (fun _ => ⟨le_refl _, by push_cast; omega⟩) e hloop
    · cases h
  · split at h
    · rename_i e hloop
      exact findLoop_not_error _ _ _ _ (fun _ => ⟨le_refl _, by decide⟩) e hloop
    · split at h
      · rename_i e hloop
        exact findLoop_not_error _ _ _ _ (fun _ => ⟨le_refl _, by push_cast; omega⟩) e hloop
      · split at h
        · rename_i e hwr
          injection h with h
          subst h
          exact WriteSector_not_bounds _ _ _ hwr
        · cases h

theorem AppendSector_not_bounds {w0 : World} {hdr : FileHeader} {w : World}
    (hinv : Inv w0 hdr w) (h0 : 0 ≤ hdr.numSectors) (n : Int) (junk : Block) :
    hdr.AppendSector w n junk ≠ .error .bounds := by
  obtain ⟨hb, hc, h29, hs29, _, _⟩ := hinv
  intro h
  unfold FileHeader.AppendSector at h
  split at h
  · cases h
  simp only at h
  split at h
  · split at h
    · cases h
    split at h
    · cases h
    rename_i hcap
    rw [overCapacity_ne_true] at hcap
    split at h
    · rename_i hl
      have hc29 := h29.mp hl
      split at h
      · rename_i hlt
        push_cast at hlt
        split at h
        · rename_i e hloop
          exact findLoop_not_error _ _ _ _ (fun _ => ⟨h0, by push_cast; omega⟩) e hloop
        · cases h
      · split at h
        · rename_i e hloop
          exact findLoop_not_error _ _ _ _ (fun _ => ⟨h0, by push_cast; omega⟩) e hloop
        · split at h
          · rename_i e hloop
            refine findLoop_not_error _ _ _ _ (fun _ => ⟨?_, ?_⟩) e hloop
            · push_cast
              split <;> omega
            · push_cast
              split <;> omega
          · split at h
            · rename_i e hwr
              injection h with h
              subst h
              exact WriteSector_not_bounds _ _ _ hwr
            · cases h
    · rename_i hl
      have hc29 : 29 ≤ hdr.numSectors := by
        by_contra hcon
        exact hl (h29.mpr (by omega))
      split at h
      · rename_i e hrd
        injection h with h
        subst h
        exact ReadSector_not_bounds _ _ hrd
      · split at h
        · rename_i e hloop
          exact findLoop_not_error _ _ _ _ (fun _ => ⟨by push_cast; omega, by push_cast; omega⟩)
            e hloop
        · split at h
          · rename_i e hwr
            injection h with h
            subst h
            exact WriteSector_not_bounds _ _ _ hwr
          · cases h
  · cases h

theorem Deallocate_not_bounds {w0 : World} {hdr : FileHeader} {w : World}
    (hinv : Inv w0 hdr w) (v : World) : hdr.Deallocate v ≠ .error .bounds := by
  obtain ⟨hb, hc, h29, hs29, _, _⟩ := hinv
  intro h
  unfold FileHeader.Deallocate at h
  simp only at h
  split at h
  · rename_i hl
    have hc29 := h29.mp hl
    split at h
    · rename_i e hloop
      injection h with h
      subst h
      exact clearLoopChecked_not_bounds _ _ _ _ (fun _ => ⟨le_refl _, by push_cast; omega⟩) hloop
    · cases h
  · rename_i hl
    have hc29 : 29 ≤ hdr.numSectors := by
      by_contra hcon
      exact hl (h29.mpr (by omega))
    split at h
    · rename_i e hloop
      injection h with h
      subst h
      exact clearLoopChecked_not_bounds _ _ _ _ (fun _ => ⟨le_refl _, by decide⟩) hloop
    · split at h
      · rename_i e hrd
        injection h with h
        subst h
        exact ReadSector_not_bounds _ _ hrd
      · split at h
        · rename_i e hcl
          injection h with h
          subst h
          exact Clear_not_bounds _ _ hcl
        · split at h
          · rename_i e hloop
            injection h with h
            subst h
            refine clearLoop_not_bounds _ _ _ _ (fun _ => ⟨?_, ?_⟩) hloop
            · decide
            · have e1 : (if (0 : Int) < (NumDirect : Int) - 1 then (NumDirect : Int) - 1 else 0)
                  = 29 := by decide
              rw [e1]
              push_cast
              omega
          · cases h

/-- C18. In every state reached by a successful `Allocate` and successful `AppendSector`
calls, no operation uses an index outside its array (the embedding ends such a call in
`Fault.bounds`): not `AppendSector` with any argument, not `Deallocate`, and not
`ByteToSector` for `0 <= offset < numBytes`, whose index `offset/128` or `offset/128 - 29`
lies in `[0, 29)` or `[0, 32)`; `Allocate` never does, whatever its input. In such a state
`0 <= numSectors <= 61`, and `dataSectors[29]` differs from the sentinel only when
`numSectors >= 29`, so `i - 29` is not negative in the branch that extends the indirect
block. -/
theorem index_safety_in_reachable_states (w0 : World) (a : Int) (hdr : FileHeader) (w : World)
    (hr : Reach w0 a hdr w) :
    (∀ (hdr0 : FileHeader) (v : World) (b : Int) (junk : Block),
      hdr0.Allocate v b junk ≠ .error .bounds) ∧
    (∀ (n : Int) (junk : Block), hdr.AppendSector w n junk ≠ .error .bounds) ∧
    (∀ v : World, hdr.Deallocate v ≠ .error .bounds) ∧
    (∀ offset : Int, 0 ≤ offset → offset < hdr.numBytes →
      0 ≤ offset / 128 ∧ (offset / 128 < 29 ∨ offset / 128 - 29 < 32) ∧
      ∃ s, hdr.ByteToSector w offset = .ok (s, hdr, w)) ∧
    (hdr.dataSectors lastSlot ≠ -1 → 29 ≤ hdr.numSectors) ∧
    0 ≤ hdr.numSectors ∧ hdr.numSectors ≤ 61 := by
  have hinv := hr.inv
  obtain ⟨h0, _, _⟩ := hr.nonneg
  refine ⟨Allocate_not_bounds, AppendSector_not_bounds hinv h0, Deallocate_not_bounds hinv,
    ?_, ?_, h0, hinv.2.1⟩
  · intro offset ho0 ho1
    have hb := hinv.1
    have hc := hinv.2.1
    exact ⟨by omega, by omega, _, ByteToSector_eq hinv offset ho0 ho1⟩
  · intro hne
    by_contra hcon
    exact hne (hinv.2.2.1.mpr (by omega))

/-- Witness of C18: the 40-sector file built by `Allocate(3000)` and `AppendSector(2000)`. -/
theorem index_safety_in_reachable_states_witness :
    (∀ (hdr0 : FileHeader) (v : World) (b : Int) (junk : Block),
      hdr0.Allocate v b junk ≠ .error .bounds) ∧
    (∀ (n : Int) (junk : Block), hdrB.AppendSector wB n junk ≠ .error .bounds) ∧
    (∀ v : World, hdrB.Deallocate v ≠ .error .bounds) ∧
    (∀ offset : Int, 0 ≤ offset → offset < hdrB.numBytes →
      0 ≤ offset / 128 ∧ (offset / 128 < 29 ∨ offset / 128 - 29 < 32) ∧
      ∃ s, hdrB.ByteToSector wB offset = .ok (s, hdrB, wB)) ∧
    (hdrB.dataSectors lastSlot ≠ -1 → 29 ≤ hdrB.numSectors) ∧
    0 ≤ hdrB.numSectors ∧ hdrB.numSectors ≤ 61 :=
  index_safety_in_reachable_states (emptyWorld 50) 3000 hdrB wB reach_B

theorem AppendSector_fits (hdr : FileHeader) (w : World) (n : Int) (junk : Block)
    (h0 : 0 < n) (h1 : n ≤ hdr.restLength) :
    hdr.AppendSector w n junk =
      .ok (true, ⟨hdr.numBytes + n, hdr.numSectors, hdr.dataSectors⟩, w) := by
  unfold FileHeader.restLength at h1
  unfold FileHeader.AppendSector
  have h2 : ¬ (n ≤ 0) := by omega
  have h3 : ¬ (hdr.numSectors * SectorSize - hdr.numBytes < n) := by omega
  simp only [h2, h3, if_false]

theorem Allocate_then_AppendSector_reaches (hdr0 : FileHeader) (w0 : World) (a b : Int)
    (junk1 junk2 : Block) (ha : 0 ≤ a) (hb : 0 < b)
    (hcap : divRoundUp (a + b) SectorSize ≤ 61)
    (hfree : divRoundUp (a + b) SectorSize < w0.freeMap.NumClear) :
    ∃ h1 w1 h2 w2, hdr0.Allocate w0 a junk1 = .ok (true, h1, w1) ∧
      h1.AppendSector w1 b junk2 = .ok (true, h2, w2) ∧
      h2.numBytes = a + b ∧ h2.numSectors = divRoundUp (a + b) SectorSize := by
  have hmono : divRoundUp a SectorSize ≤ divRoundUp (a + b) SectorSize := by
    unfold divRoundUp SectorSize
    omega
  have hlow : 0 ≤ divRoundUp a SectorSize := by
    unfold divRoundUp SectorSize
    omega
  obtain ⟨h1, w1, hal, hb1, hs1, _⟩ := Allocate_succeeds hdr0 w0 a junk1 hlow (by omega)
    (by split <;> omega)
  have r1 : Reach w0 a h1 w1 := Reach.alloc h1 w1 ⟨hdr0, junk1, hal⟩
  have inv1 := r1.inv
  obtain ⟨hn0, hr0, _⟩ := r1.nonneg
  by_cases hfit : b ≤ h1.restLength
  · refine ⟨h1, w1, _, w1, hal, AppendSector_fits h1 w1 b junk2 hb hfit, ?_, ?_⟩
    · show h1.numBytes + b = a + b
      rw [hb1]
    · show h1.numSectors = divRoundUp (a + b) SectorSize
      unfold FileHeader.restLength at hfit hr0
      rw [hs1, hb1] at hfit hr0
      rw [hs1]
      unfold divRoundUp SectorSize at *
      omega
  · have hrest : h1.restLength < b := by omega
    have hg : h1.grown b = divRoundUp (a + b) SectorSize := by
      unfold FileHeader.grown
      unfold FileHeader.restLength at hrest hr0 ⊢
      rw [hs1, hb1] at hrest hr0 ⊢
      unfold divRoundUp SectorSize at *
      omega
    have hlen1 := inv1.addressed_length
    have hnn := NumClear_nonneg w0.freeMap
    obtain ⟨hnc1, _⟩ := r1.numClear (by rw [hlen1]; split <;> push_cast <;> omega)
    have hneed : h1.growthNeed b ≤ w1.freeMap.NumClear := by
      unfold FileHeader.growthNeed
      rw [hnc1, hlen1, hg]
      by_cases h29 : h1.numSectors < 29
      · simp only [h29, if_true]
        split <;> omega
      · have hne : ¬ (h1.dataSectors lastSlot = -1) := fun hc => h29 (inv1.2.2.1.mp hc)
        simp only [h29, if_false, hne, false_and]
        push_cast
        omega
    obtain ⟨h2, w2, happ, _⟩ := AppendSector_succeeds inv1 hn0 b junk2 hb hrest
      (by rw [hg]; exact hcap) hneed
    obtain ⟨_, hb2, hcase⟩ := AppendSector_cases happ
    refine ⟨h1, w1, h2, w2, hal, happ, by rw [hb2, hb1], ?_⟩
    rcases hcase with ⟨hfit2, _, _, _⟩ | ⟨_, hsec, _, _, _⟩
    · omega
    · rw [hsec, hg]

/-- C19. For every free map, every `a >= 0` and `b > 0` with `ceil((a+b)/128) <= 61` and more
than `ceil((a+b)/128)` free sectors: `Allocate(a)` followed by `AppendSector(b)` and
`Allocate(a+b)`, both started on that free map (from any headers and stack contents), both
return `TRUE` and agree on `numBytes`, on `numSectors`, on `dataSectors[29]`, on the sector
`ByteToSector` returns for every offset below `a+b`, and on the final free map. -/
theorem AppendSector_composes_with_Allocate (hdr0 hdr0' : FileHeader) (w0 : World) (a b : Int)
    (junk1 junk2 junk3 : Block) (ha : 0 ≤ a) (hb : 0 < b)
    (hcap : divRoundUp (a + b) SectorSize ≤ 61)
    (hfree : divRoundUp (a + b) SectorSize < w0.freeMap.NumClear) :
    ∃ h1 w1 h2 w2 h3 w3,
      hdr0.Allocate w0 a junk1 = .ok (true, h1, w1) ∧
      h1.AppendSector w1 b junk2 = .ok (true, h2, w2) ∧
      hdr0'.Allocate w0 (a + b) junk3 = .ok (true, h3, w3) ∧
      h2.numBytes = h3.numBytes ∧ h2.numSectors = h3.numSectors ∧
      h2.dataSectors lastSlot = h3.dataSectors lastSlot ∧
      (∀ o : Int, 0 ≤ o → o < a + b →
        ∃ s, h2.ByteToSector w2 o = .ok (s, h2, w2) ∧ h3.ByteToSector w3 o = .ok (s, h3, w3)) ∧
      w2.freeMap = w3.freeMap := by
  obtain ⟨h1, w1, h2, w2, hal, happ, hb2, hs2⟩ :=
    Allocate_then_AppendSector_reaches hdr0 w0 a b junk1 junk2 ha hb hcap hfree
  have hlow : 0 ≤ divRoundUp (a + b) SectorSize := by
    unfold divRoundUp SectorSize
    omega
  obtain ⟨h3, w3, hal3, hb3, hs3, _⟩ := Allocate_succeeds hdr0' w0 (a + b) junk3 hlow hcap
    (by split <;> omega)
  have r2 : Reach w0 a h2 w2 :=
    Reach.append h1 w1 h2 w2 (Reach.alloc h1 w1 ⟨hdr0, junk1, hal⟩) ⟨b, junk2, happ⟩
  have r3 : Reach w0 (a + b) h3 w3 := Reach.alloc h3 w3 ⟨hdr0', junk3, hal3⟩
  have inv2 := r2.inv
  have inv3 := r3.inv
  have hsec : h2.numSectors = h3.numSectors := by rw [hs2, hs3]
  have hlen : (h2.addressed w2).length = (h3.addressed w3).length := by
    rw [inv2.addressed_length, inv3.addressed_length, hsec]
  obtain ⟨e2, f2⟩ := inv2.findN_eq r2.steps
  obtain ⟨e3, f3⟩ := inv3.findN_eq r3.steps
  rw [hlen] at e2 f2
  have haddr : h2.addressed w2 = h3.addressed w3 := by rw [← e2, e3]
  have hdiv := divRoundUp_spec (a + b)
  refine ⟨h1, w1, h2, w2, h3, w3, hal, happ, hal3, by rw [hb2, hb3], hsec, ?_, ?_,
    by rw [← f2, f3]⟩
  · by_cases h29 : h2.numSectors < 29
    · rw [inv2.2.2.1.mpr h29, inv3.2.2.1.mpr (by omega)]
    · have l2 := inv2.lastSlot_log (by omega)
      have l3 := inv3.lastSlot_log (by omega)
      rw [haddr, l3] at l2
      injection l2 with l2
      exact l2.symm
  · intro o ho0 ho1
    refine ⟨h2.blockSector w2 (o / 128), ByteToSector_eq inv2 o ho0 (by omega), ?_⟩
    rw [ByteToSector_eq inv3 o ho0 (by omega)]
    have k2 := inv2.blockSector_log (o / 128) (by omega) (by omega)
    have k3 := inv3.blockSector_log (o / 128) (by omega) (by omega)
    rw [haddr, k3] at k2
    injection k2 with k2
    rw [k2]

/-- Witness of C19: 3000 bytes, then 2000 more, against 5000 bytes at once, on 50 free
sectors. -/
theorem AppendSector_composes_with_Allocate_witness :
    ∃ h1 w1 h2 w2 h3 w3,
      hdrZero.Allocate (emptyWorld 50) 3000 junkZero = .ok (true, h1, w1) ∧
      h1.AppendSector w1 2000 junkZero = .ok (true, h2, w2) ∧
      hdrZero.Allocate (emptyWorld 50) (3000 + 2000) junkZero = .ok (true, h3, w3) ∧
      h2.numBytes = h3.numBytes ∧ h2.numSectors = h3.numSectors ∧
      h2.dataSectors lastSlot = h3.dataSectors lastSlot ∧
      (∀ o : Int, 0 ≤ o → o < 3000 + 2000 →
        ∃ s, h2.ByteToSector w2 o = .ok (s, h2, w2) ∧ h3.ByteToSector w3 o = .ok (s, h3, w3)) ∧
      w2.freeMap = w3.freeMap :=
  AppendSector_composes_with_Allocate hdrZero hdrZero (emptyWorld 50) 3000 2000 junkZero junkZero
    junkZero (by decide) (by decide) (by decide) (by decide)

/-! ## Slack growth in 32-bit arithmetic -/

theorem wrap32_eq (x : Int) (h : IsInt32 x) : wrap32 x = x := by
  unfold IsInt32 at h
  unfold wrap32
  omega

/-- C11, as stated, fails: with `numBytes = 0` and `numSectors = 2^24` the slack is 2^31
bytes and a request of one byte fits it, but `numSectors * SectorSize` does not fit an
`int`: the 32-bit computation takes the growth branch, returns `TRUE` and leaves
`numSectors = 1`. -/
theorem AppendSector32_overflow_leaves_slack_path :
    (0 : Int) < 1 ∧ (1 : Int) ≤ hdrHuge.numSectors * 128 - hdrHuge.numBytes ∧
      hdrHuge.numSectors = 16777216 ∧
      returned (hdrHuge.AppendSector32 (emptyWorld 5) 1 junkZero) = some true ∧
      (outHdr (hdrHuge.AppendSector32 (emptyWorld 5) 1 junkZero)).numSectors = 1 :=
  ⟨by decide, by decide, by decide, by decide, by decide⟩

/-- C11, amended. In every header state whose `numBytes`, product `numSectors * 128` and
slack `numSectors * 128 - numBytes` are values of a 32-bit `int`, a request that fits the
slack, `0 < fileSize <= numSectors * 128 - numBytes`, makes `AppendSector` return `TRUE`, add
`fileSize` to `numBytes`, and leave `numSectors`, the whole table `dataSectors` and the world
(free map, disk, history of `Find` calls) as they were. -/
theorem AppendSector32_into_slack (hdr : FileHeader) (w : World) (fileSize : Int)
    (junk : Block) (hb : IsInt32 hdr.numBytes) (ht : IsInt32 (hdr.numSectors * SectorSize))
    (hs : IsInt32 (hdr.numSectors * SectorSize - hdr.numBytes))
    (h0 : 0 < fileSize) (h1 : fileSize ≤ hdr.numSectors * SectorSize - hdr.numBytes) :
    hdr.AppendSector32 w fileSize junk =
      .ok (true, ⟨hdr.numBytes + fileSize, hdr.numSectors, hdr.dataSectors⟩, w) := by
  have e1 := wrap32_eq _ ht
  have e2 := wrap32_eq _ hs
  have e3 : wrap32 (hdr.numBytes + fileSize) = hdr.numBytes + fileSize := by
    apply wrap32_eq
    unfold IsInt32 at *
    omega
  unfold FileHeader.AppendSector32
  have h2 : ¬ (fileSize ≤ 0) := by omega
  have h3 : ¬ (hdr.numSectors * SectorSize - hdr.numBytes < fileSize) := by omega
  simp only [h2, e1, e2, h3, e3, if_false]

/-- Witness of C11 amended: the 3000-byte file of 24 sectors has 72 bytes of slack, and a
request of exactly 72 bytes is served from it. -/
theorem AppendSector32_into_slack_witness :
    hdrA.AppendSector32 wA 72 junkZero =
      .ok (true, ⟨hdrA.numBytes + 72, hdrA.numSectors, hdrA.dataSectors⟩, wA) :=
  AppendSector32_into_slack hdrA wA 72 junkZero ⟨by decide, by decide⟩ ⟨by decide, by decide⟩
    ⟨by decide, by decide⟩ (by decide) (by decide)

theorem AppendSector32_eq (hdr : FileHeader) (w : World) (n : Int) (junk : Block)
    (hc0 : 0 ≤ hdr.numSectors) (hc1 : hdr.numSectors ≤ 61)
    (hb0 : -128 < hdr.numBytes) (hb1 : hdr.numBytes ≤ hdr.numSectors * 128)
    (hn : IsInt32 n) :
    hdr.AppendSector32 w n junk = hdr.AppendSector w n junk := by
  unfold IsInt32 at hn
  have e1 : wrap32 (hdr.numSectors * SectorSize) = hdr.numSectors * SectorSize := by
    apply wrap32_eq
    unfold IsInt32 SectorSize
    omega
  have e2 : wrap32 (hdr.numSectors * SectorSize - hdr.numBytes)
      = hdr.numSectors * SectorSize - hdr.numBytes := by
    apply wrap32_eq
    unfold IsInt32 SectorSize
    omega
  unfold FileHeader.AppendSector32 FileHeader.AppendSector
  simp only [e1, e2]
  by_cases hpos : n ≤ 0
  · simp only [hpos, if_true]
  simp only [hpos, if_false]
  by_cases hrest : hdr.numSectors * SectorSize - hdr.numBytes < n
  · have e3 : wrap32 (n - (hdr.numSectors * SectorSize - hdr.numBytes))
        = n - (hdr.numSectors * SectorSize - hdr.numBytes) := by
      apply wrap32_eq
      unfold IsInt32 SectorSize at *
      omega
    have hdiv := divRoundUp_spec (n - (hdr.numSectors * SectorSize - hdr.numBytes))
    have e4 : wrap32 (hdr.numSectors +
        divRoundUp (n - (hdr.numSectors * SectorSize - hdr.numBytes)) SectorSize)
        = hdr.numSectors +
          divRoundUp (n - (hdr.numSectors * SectorSize - hdr.numBytes)) SectorSize := by
      apply wrap32_eq
      unfold IsInt32 SectorSize at *
      omega
    simp only [hrest, if_true, e3, e4]
    by_cases hfree : w.freeMap.NumClear <
        divRoundUp (n - (hdr.numSectors * SectorSize - hdr.numBytes)) SectorSize
    · simp only [hfree, if_true]
    simp only [hfree, if_false]
    by_cases hcap : overCapacity (hdr.numSectors +
        divRoundUp (n - (hdr.numSectors * SectorSize - hdr.numBytes)) SectorSize) = true
    · simp only [hcap, if_true]
    simp only [hcap, if_false]
    rw [overCapacity_ne_true] at hcap
    have e5 : wrap32 (hdr.numBytes + n) = hdr.numBytes + n := by
      apply wrap32_eq
      unfold IsInt32 SectorSize at *
      omega
    have e6 : wrap32 (hdr.numSectors - ((NumDirect : Int) - 1))
        = hdr.numSectors - ((NumDirect : Int) - 1) := by
      apply wrap32_eq
      unfold IsInt32
      push_cast
      omega
    have e7 : wrap32 ((if hdr.numSectors < (NumDirect : Int) - 1 then (NumDirect : Int) - 1
        else hdr.numSectors) - ((NumDirect : Int) - 1))
        = (if hdr.numSectors < (NumDirect : Int) - 1 then (NumDirect : Int) - 1
          else hdr.numSectors) - ((NumDirect : Int) - 1) := by
      apply wrap32_eq
      unfold IsInt32
      push_cast
      split <;> omega
    simp only [e5, e6, e7]
  · have e5 : wrap32 (hdr.numBytes + n) = hdr.numBytes + n := by
      apply wrap32_eq
      unfold IsInt32 SectorSize at *
      omega
    simp only [hrest, if_false, e5]

/-- On every state reached by a successful `Allocate` and successful `AppendSector` calls the
32-bit arithmetic never wraps: `AppendSector32` and `AppendSector` are the same function of
an `int` argument there. -/
theorem Reach.no_wrap {w0 : World} {a : Int} {hdr : FileHeader} {w : World}
    (h : Reach w0 a hdr w) (n : Int) (junk : Block) (hn : IsInt32 n) :
    hdr.AppendSector32 w n junk = hdr.AppendSector w n junk := by
  obtain ⟨h0, _, hb0⟩ := h.nonneg
  exact Nachos.AppendSector32_eq hdr w n junk h0 h.inv.2.1 hb0 h.inv.1 hn

end Nachos
